import Mathlib

/-!
# Verification of the RAG retrieval and embedding core

Shallow embedding of the core of the `app-RAG` backend
(`backend/core/chunking.py`, `backend/core/embeddings.py`,
`backend/core/retrieval.py`) together with theorems settling the
specification claims about chunking, embedding generation, vector search
and hybrid search.

Text is modelled as `List Char` (Python `str` indexing and slicing is by
character).  Floating point scores and vectors are modelled over `ℚ`.
Python `while` loops are modelled as fuel-based recursions: the fuel given
by each wrapper (`text.length + 1`) dominates the number of iterations of
the source loop whenever the source loop terminates, so the model computes
exactly what the Python loop computes there; where the Python loop
diverges (e.g. `chunk_size = 0`) the model returns the part produced so
far.
-/

namespace RagCore

/-! ## `TextChunker._clean_text` and Python string helpers -/

/-- Python `\s` (ASCII whitespace), the class collapsed by
`re.sub(r'\s+', ' ', text)` and stripped by `str.strip()`. -/
def pyWs (c : Char) : Bool :=
  c = ' ' || c = '\t' || c = '\n' || c = '\r' || c = '\x0b' || c = '\x0c'

/-- The control characters removed by
`re.sub(r'[\x00-\x08\x0b\x0c\x0e-\x1f\x7f]', '', text)`. -/
def pyCtrl (c : Char) : Bool :=
  (c.toNat ≤ 0x08) || c.toNat = 0x0b || c.toNat = 0x0c ||
    (0x0e ≤ c.toNat && c.toNat ≤ 0x1f) || c.toNat = 0x7f

/-- Worker for `collapseWs`; `prevWs` records whether the previously
emitted character closed a whitespace run. -/
def collapseWsGo : Bool → List Char → List Char
  | _, [] => []
  | prevWs, c :: rest =>
    if pyWs c then
      if prevWs then collapseWsGo true rest
      else ' ' :: collapseWsGo true rest
    else c :: collapseWsGo false rest

/-- `re.sub(r'\s+', ' ', text)`: every maximal whitespace run becomes a
single space. -/
def collapseWs (l : List Char) : List Char := collapseWsGo false l

/-- `re.sub(r'[\x00-...]', '', text)`. -/
def removeControl (l : List Char) : List Char := l.filter fun c => !pyCtrl c

/-- `re.sub(r'\r\n|\r', '\n', text)`. -/
def replaceCR : List Char → List Char
  | [] => []
  | '\r' :: '\n' :: rest => '\n' :: replaceCR rest
  | '\r' :: rest => '\n' :: replaceCR rest
  | c :: rest => c :: replaceCR rest

/-- `str.strip()` (default whitespace strip). -/
def pyStrip (l : List Char) : List Char :=
  (((l.dropWhile pyWs).reverse).dropWhile pyWs).reverse

/-- `TextChunker._clean_text`: collapse whitespace runs, drop control
characters, normalise line breaks, strip. -/
def cleanText (l : List Char) : List Char :=
  pyStrip (replaceCR (removeControl (collapseWs l)))

/-! ## `TextChunk` and the chunker configuration -/

/-- `chunking.TextChunk` (the `metadata` dict, which the claims never
touch, is not modelled). -/
structure TextChunk where
  content : List Char
  chunk_index : Nat
  start_char : Nat
  end_char : Nat
deriving Repr, DecidableEq

/-- The `TextChunker.__init__` configuration with its source defaults. -/
structure TextChunkerCfg where
  chunk_size : Nat := 1000
  chunk_overlap : Nat := 200
  min_chunk_size : Nat := 100
  max_chunk_size : Nat := 2000
  preserve_paragraphs : Bool := true
  preserve_sentences : Bool := true
deriving Repr, DecidableEq

/-! ## `_chunk_by_paragraphs` -/

/-- `text.split('\n\n')` (leftmost, non-overlapping). -/
def splitOnNlNlGo (acc : List Char) : List Char → List (List Char)
  | [] => [acc.reverse]
  | '\n' :: '\n' :: rest => acc.reverse :: splitOnNlNlGo [] rest
  | c :: rest => splitOnNlNlGo (c :: acc) rest

/-- `text.split('\n\n')`. -/
def splitOnNlNl (l : List Char) : List (List Char) := splitOnNlNlGo [] l

/-- The accumulation loop of `_chunk_by_paragraphs`: state is the list of
remaining paragraphs, `current_chunk` and `current_start`. -/
def chunkParasGo (cfg : TextChunkerCfg) :
    List (List Char) → List Char → Nat → List TextChunk
  | [], currentChunk, currentStart =>
    if currentChunk.isEmpty then []
    else [⟨pyStrip currentChunk, 0, currentStart,
           currentStart + currentChunk.length⟩]
  | p0 :: rest, currentChunk, currentStart =>
    let p := pyStrip p0
    if p.isEmpty then chunkParasGo cfg rest currentChunk currentStart
    else if !currentChunk.isEmpty &&
        cfg.chunk_size < currentChunk.length + p.length + 2 then
      ⟨pyStrip currentChunk, 0, currentStart,
        currentStart + currentChunk.length⟩ ::
        chunkParasGo cfg rest p (currentStart + currentChunk.length + 2)
    else
      chunkParasGo cfg rest
        (if currentChunk.isEmpty then p
         else currentChunk ++ ['\n', '\n'] ++ p) currentStart

/-- `TextChunker._chunk_by_paragraphs`. -/
def chunkByParagraphs (cfg : TextChunkerCfg) (text : List Char) :
    List TextChunk :=
  chunkParasGo cfg (splitOnNlNl text) [] 0

/-! ## `_chunk_by_sentences` -/

/-- Sentence-terminal punctuation of the split regex `[.!?]+\s+`. -/
def isSentPunct (c : Char) : Bool := c = '.' || c = '!' || c = '?'

/-- `re.split(r'[.!?]+\s+', text)`: a delimiter is a maximal punctuation
run followed by at least one whitespace character; both are consumed.
Fuel-based (each step consumes at least one character). -/
def splitSentencesGo : Nat → List Char → List Char → List (List Char)
  | 0, acc, rest => [acc.reverse ++ rest]
  | _ + 1, acc, [] => [acc.reverse]
  | fuel + 1, acc, c :: rest =>
    if isSentPunct c then
      let after := (c :: rest).dropWhile isSentPunct
      if pyWs (after.headD 'x') then
        acc.reverse :: splitSentencesGo fuel [] (after.dropWhile pyWs)
      else splitSentencesGo fuel (c :: acc) rest
    else splitSentencesGo fuel (c :: acc) rest

/-- `re.split(r'[.!?]+\s+', text)`. -/
def splitSentences (l : List Char) : List (List Char) :=
  splitSentencesGo (l.length + 1) [] l

/-- The accumulation loop of `_chunk_by_sentences` (identical to the
paragraph loop except sentences are joined with `'. '`). -/
def chunkSentsGo (cfg : TextChunkerCfg) :
    List (List Char) → List Char → Nat → List TextChunk
  | [], currentChunk, currentStart =>
    if currentChunk.isEmpty then []
    else [⟨pyStrip currentChunk, 0, currentStart,
           currentStart + currentChunk.length⟩]
  | s0 :: rest, currentChunk, currentStart =>
    let s := pyStrip s0
    if s.isEmpty then chunkSentsGo cfg rest currentChunk currentStart
    else if !currentChunk.isEmpty &&
        cfg.chunk_size < currentChunk.length + s.length + 2 then
      ⟨pyStrip currentChunk, 0, currentStart,
        currentStart + currentChunk.length⟩ ::
        chunkSentsGo cfg rest s (currentStart + currentChunk.length + 2)
    else
      chunkSentsGo cfg rest
        (if currentChunk.isEmpty then s
         else currentChunk ++ ['.', ' '] ++ s) currentStart

/-- `TextChunker._chunk_by_sentences`. -/
def chunkBySentences (cfg : TextChunkerCfg) (text : List Char) :
    List TextChunk :=
  chunkSentsGo cfg (splitSentences text) [] 0

/-! ## `_chunk_by_characters` and `_split_oversized_chunk` -/

/-- Index of the last `' '` of a character list, if any. -/
def lastSpaceIdx : List Char → Option Nat
  | [] => none
  | c :: rest =>
    match lastSpaceIdx rest with
    | some i => some (i + 1)
    | none => if c = ' ' then some 0 else none

/-- `text.rfind(' ', start, stop)`, as an `Option` (Python returns `-1`
when the window holds no space). -/
def rfindSpace (text : List Char) (start stop : Nat) : Option Nat :=
  (lastSpaceIdx ((text.drop start).take (stop - start))).map (· + start)

/-- The word-boundary back-off shared by `_chunk_by_characters` and
`_split_oversized_chunk`: when the window `[start, end0)` stops short of
the text's end, move `end` back to the last space of the window, but
only if that space lies strictly beyond `start + min_chunk_size`. -/
def backoffEnd (cfg : TextChunkerCfg) (text : List Char)
    (start end0 : Nat) : Nat :=
  if end0 < text.length then
    match rfindSpace text start end0 with
    | some lastSpace =>
      if start + cfg.min_chunk_size < lastSpace then lastSpace else end0
    | none => end0
  else end0

/-- The `while start < len(text)` loop of `_chunk_by_characters`.  The
second `Nat` argument is `start`; the next start is
`max(start + chunk_size - chunk_overlap, end)`. -/
def chunkByCharactersGo (cfg : TextChunkerCfg) (text : List Char) :
    Nat → Nat → List TextChunk
  | 0, _ => []
  | fuel + 1, start =>
    if start < text.length then
      let end1 := backoffEnd cfg text start
        (min (start + cfg.chunk_size) text.length)
      let content := pyStrip ((text.drop start).take (end1 - start))
      let tail := chunkByCharactersGo cfg text fuel
        (max (start + cfg.chunk_size - cfg.chunk_overlap) end1)
      if content.isEmpty then tail
      else ⟨content, 0, start, end1⟩ :: tail
    else []

/-- `TextChunker._chunk_by_characters`. -/
def chunkByCharacters (cfg : TextChunkerCfg) (text : List Char) :
    List TextChunk :=
  chunkByCharactersGo cfg text (text.length + 1) 0

/-- The `while start < len(content)` loop of `_split_oversized_chunk`:
windows of `max_chunk_size`, word-boundary back-off, `start = end`. -/
def splitOversizedGo (cfg : TextChunkerCfg) (content : List Char)
    (baseStart : Nat) : Nat → Nat → List TextChunk
  | 0, _ => []
  | fuel + 1, start =>
    if start < content.length then
      let end1 := backoffEnd cfg content start
        (min (start + cfg.max_chunk_size) content.length)
      let piece := pyStrip ((content.drop start).take (end1 - start))
      let tail := splitOversizedGo cfg content baseStart fuel end1
      if piece.isEmpty then tail
      else ⟨piece, 0, baseStart + start, baseStart + end1⟩ :: tail
    else []

/-- `TextChunker._split_oversized_chunk`. -/
def splitOversizedChunk (cfg : TextChunkerCfg) (chunk : TextChunk) :
    List TextChunk :=
  splitOversizedGo cfg chunk.content chunk.start_char
    (chunk.content.length + 1) 0

/-! ## `_filter_chunks_by_size` and `chunk_text` -/

/-- `TextChunker._filter_chunks_by_size`: keep chunks whose content
length lies in `[min_chunk_size, max_chunk_size]`, re-split oversized
chunks, silently drop undersized ones. -/
def filterChunksBySize (cfg : TextChunkerCfg) :
    List TextChunk → List TextChunk
  | [] => []
  | c :: rest =>
    if cfg.min_chunk_size ≤ c.content.length &&
        c.content.length ≤ cfg.max_chunk_size then
      c :: filterChunksBySize cfg rest
    else if cfg.max_chunk_size < c.content.length then
      splitOversizedChunk cfg c ++ filterChunksBySize cfg rest
    else
      filterChunksBySize cfg rest

/-- The final re-indexing pass of `chunk_text`
(`chunk.chunk_index = i`). -/
def reindexChunks (l : List TextChunk) : List TextChunk :=
  l.enum.map fun ic => { ic.2 with chunk_index := ic.1 }

/-- `TextChunker.chunk_text`: clean, run the strategy cascade
(paragraphs, then sentences, then characters — first non-empty output
wins), size-filter, re-index. -/
def chunkText (cfg : TextChunkerCfg) (text : List Char) : List TextChunk :=
  if (pyStrip text).isEmpty then []
  else
    let cleaned := cleanText text
    let chunks1 :=
      if cfg.preserve_paragraphs then chunkByParagraphs cfg cleaned else []
    let chunks2 :=
      if chunks1.isEmpty && cfg.preserve_sentences then
        chunkBySentences cfg cleaned
      else chunks1
    let chunks3 :=
      if chunks2.isEmpty then chunkByCharacters cfg cleaned else chunks2
    reindexChunks (filterChunksBySize cfg chunks3)

/-! ## Embedding generation (`backend/core/embeddings.py`)

Vectors are over `ℚ`.  One provider call
(`provider_manager.generate_embedding`) either returns an
`EmbeddingResponse` or raises; `asyncio.gather(..., return_exceptions=True)`
delivers one outcome per text, in input order, so a provider run is
modelled as a list of `Except String EmbeddingResponse`, one per text.
The `usage` dict is modelled by its only consulted entry
(`total_tokens`); a `None` dict is `none`. -/

/-- `ai_providers.EmbeddingResponse`. -/
structure EmbeddingResponse where
  embedding : List ℚ
  model : String
  provider : String
  usage : Option Nat := none
  error : Option String := none
deriving Repr, DecidableEq

/-- `embeddings.EmbeddingResult`. -/
structure EmbeddingResult where
  embeddings : List (List ℚ)
  model : String
  provider : String
  total_tokens : Nat := 0
  errors : List String := []
deriving Repr, DecidableEq

/-- Python truthiness of an `Optional[str]` (`None` and `""` are falsy). -/
def truthyStr : Option String → Bool
  | none => false
  | some s => !s.isEmpty

/-- One text's provider outcome: a returned response, or a raised
exception captured by `asyncio.gather(..., return_exceptions=True)`. -/
abbrev PerCallOutcome := Except String EmbeddingResponse

/-- `_generate_batch_embeddings`: fan the batch out, gather in input
order, convert raised exceptions into error responses. -/
def generateBatchEmbeddings (model provider : String)
    (outcomes : List PerCallOutcome) : List EmbeddingResponse :=
  outcomes.map fun o =>
    match o with
    | .error e => ⟨[], model, provider, none, some e⟩
    | .ok r => r

/-- The error message recorded for a failed text
(`f"Text {i + j}: {embedding_result.error}"`). -/
def textErrorTag (i : Nat) (e : Option String) : String :=
  "Text " ++ toString i ++ ": " ++ e.getD ""

/-- The per-batch result-collection loop of `_generate_with_provider`:
`i` is the absolute index of the first element.  A response with a truthy
`error` contributes a zero-vector of `dims` entries plus a tagged error;
otherwise the response's vector is appended and its usage added. -/
def collectBatch (dims : Nat) :
    Nat → List (String × EmbeddingResponse) →
      List (List ℚ) × Nat × List String
  | _, [] => ([], 0, [])
  | i, (_, er) :: rest =>
    let (es, tok, errs) := collectBatch dims (i + 1) rest
    if truthyStr er.error then
      (List.replicate dims 0 :: es, tok, textErrorTag i er.error :: errs)
    else
      (er.embedding :: es, er.usage.getD 0 + tok, errs)

/-- `range(0, len(texts), batch_size)` slicing, as the list of batches.
Structural worker: `k` is the remaining capacity of the open batch. -/
def listBatchesGo (bs : Nat) : Nat → List α → List α → List (List α)
  | _, acc, [] => [acc.reverse]
  | k + 1, acc, x :: xs => listBatchesGo bs k (x :: acc) xs
  | 0, acc, x :: xs => acc.reverse :: listBatchesGo bs (bs - 1) [x] xs

/-- `[texts[i:i+bs] for i in range(0, len(texts), bs)]` (callers always
pass `bs ≥ 1`; Python raises for step `0`). -/
def listBatches (bs : Nat) : List α → List (List α)
  | [] => []
  | x :: xs => listBatchesGo bs (bs - 1) [x] xs

/-- The batch loop of `_generate_with_provider`: `i` is the start index
of the current batch; each batch is fanned out via
`_generate_batch_embeddings` and collected in order. -/
def providerBatchesGo (dims : Nat) (model provider : String) :
    Nat → List (List (String × PerCallOutcome)) →
      List (List ℚ) × Nat × List String
  | _, [] => ([], 0, [])
  | i, b :: bsRest =>
    let responses := generateBatchEmbeddings model provider (b.map Prod.snd)
    let (es, tok, errs) := collectBatch dims i ((b.map Prod.fst).zip responses)
    let (es', tok', errs') :=
      providerBatchesGo dims model provider (i + b.length) bsRest
    (es ++ es', tok + tok', errs ++ errs')

/-- `_generate_with_provider`: process `texts` (paired with their
provider outcomes) in batches of `bs`, returning
`(embeddings, total_tokens, errors)`. -/
def generateWithProvider (dims : Nat) (model provider : String) (bs : Nat)
    (items : List (String × PerCallOutcome)) :
    List (List ℚ) × Nat × List String :=
  providerBatchesGo dims model provider 0 (listBatches bs items)

/-- `batch_size = batch_size or 100` (Python: `None` and `0` are falsy). -/
def effectiveBatchSize : Option Nat → Nat
  | none => 100
  | some 0 => 100
  | some (n + 1) => n + 1

/-- `provider or default` / `model or default` on optional strings. -/
def orDefault (v : Option String) (d : String) : String :=
  match v with
  | none => d
  | some s => if s.isEmpty then d else s

/-- `_generate_local_embeddings`: the local sentence-transformer encodes
each batch; one vector per text, in order (`enc` is the local model's
encoding function).  A raised exception is modelled separately in
`generateEmbeddings`. -/
def generateLocalEmbeddings (enc : String → List ℚ) (bs : Nat)
    (texts : List String) : List (List ℚ) :=
  ((listBatches bs texts).map fun batch => batch.map enc).flatten

/-- `EmbeddingGenerator.generate_embeddings`.

* `providerPath` — `.ok outcomes`: the provider path ran and delivered a
  per-text outcome list (the only behaviour `_generate_with_provider`
  itself exhibits, since every per-call exception is captured by
  `gather(return_exceptions=True)`); `.error e`: the whole provider path
  raised, which the outer `try` converts into a
  `"Provider embedding failed: ..."` entry with no embeddings.
* `localModel` — the local fallback encoder, `none` when
  `_initialize_local_model` failed; `localFail` — a raised local-encode
  exception, appended as `"Local embedding failed: ..."`. -/
def generateEmbeddings (dims : Nat) (defaultProvider defaultModel : String)
    (texts : List String) (provider model : Option String)
    (batchSize : Option Nat)
    (providerPath : Except String (List PerCallOutcome))
    (localModel : Option (String → List ℚ)) (localFail : Option String) :
    EmbeddingResult :=
  if texts.isEmpty then
    ⟨[], orDefault model defaultModel, orDefault provider defaultProvider,
      0, []⟩
  else
    let provider' := orDefault provider defaultProvider
    let model' := orDefault model defaultModel
    let bs := effectiveBatchSize batchSize
    let (embeddings, totalTokens, errors) :=
      match providerPath with
      | .ok outcomes =>
        generateWithProvider dims model' provider' bs (texts.zip outcomes)
      | .error e => ([], 0, ["Provider embedding failed: " ++ e])
    if embeddings.isEmpty && localModel.isSome then
      match localFail with
      | some m =>
        ⟨embeddings, model', provider', totalTokens,
          errors ++ ["Local embedding failed: " ++ m]⟩
      | none =>
        ⟨generateLocalEmbeddings (localModel.getD fun _ => []) bs texts,
          model', provider', totalTokens, errors⟩
    else
      ⟨embeddings, model', provider', totalTokens, errors⟩

/-- `EmbeddingGenerator.generate_single_embedding`: wraps the text in a
one-element batch and returns its vector only when the result has a
non-empty `embeddings` list and an empty `errors` list. -/
def generateSingleEmbedding (dims : Nat)
    (defaultProvider defaultModel : String) (text : String)
    (provider model : Option String)
    (providerPath : Except String (List PerCallOutcome))
    (localModel : Option (String → List ℚ)) (localFail : Option String) :
    Option (List ℚ) :=
  let result := generateEmbeddings dims defaultProvider defaultModel [text]
    provider model none providerPath localModel localFail
  if !result.embeddings.isEmpty && result.errors.isEmpty then
    result.embeddings.head?
  else none

/-! ## Vector retrieval (`backend/core/retrieval.py`)

The vector store (an external collaborator per the spec) is modelled as
the ordered chunk list it returns, and its cosine distance as an
abstract function parameter `dist`; `_perform_vector_search` recomputes
`similarity = 1 - dist(chunk.embedding, query_embedding)` per chunk
exactly as the source does. -/

/-- A metadata value stored in a result's metadata dict. -/
inductive MetaValue where
  | str (s : Option String)
  | num (q : ℚ)
  | nat (n : Nat)
deriving Repr, DecidableEq

/-- A persisted chunk as retrieval sees it (`DocumentChunk` plus the
document / profile fields the search code reads). -/
structure StoredChunk where
  id : Nat
  embedding : Option (List ℚ)
  chunk_index : Nat
  document_filename : Option String := none
  profile_name : Option String := none
deriving Repr, DecidableEq

/-- `retrieval.SearchResult`. -/
structure SearchResult where
  chunk : StoredChunk
  similarity_score : ℚ
  rank : Nat
  metadata : List (String × MetaValue) := []
deriving Repr, DecidableEq

/-- `retrieval.SearchResponse` (`search_time`, a wall-clock reading, is
not modelled). -/
structure SearchResponse where
  results : List SearchResult
  total_results : Nat
  query_embedding : Option (List ℚ) := none
  metadata : List (String × MetaValue) := []
deriving Repr, DecidableEq

/-- Python truthiness of an optional vector (`None` and `[]` falsy). -/
def truthyEmb : Option (List ℚ) → Bool
  | none => false
  | some l => !l.isEmpty

/-- The metadata attached to a result by `_perform_vector_search` when
`include_metadata` is set. -/
def vectorSearchMeta (chunk : StoredChunk) : List (String × MetaValue) :=
  [("document_filename", .str chunk.document_filename),
   ("chunk_index", .nat chunk.chunk_index),
   ("profile_name", .str chunk.profile_name)]

/-- The scoring/filter loop of `_perform_vector_search`: for each chunk
with a truthy embedding compute `similarity = 1 - dist(emb, query)`,
keep it iff `similarity ≥ similarity_threshold`, with
`rank = len(search_results) + 1` at append time. -/
def vectorSearchStep (dist : List ℚ → List ℚ → ℚ) (queryEmbedding : List ℚ)
    (similarityThreshold : ℚ) (includeMetadata : Bool)
    (acc : List SearchResult) (chunk : StoredChunk) : List SearchResult :=
  if truthyEmb chunk.embedding then
    let similarity := 1 - dist (chunk.embedding.getD []) queryEmbedding
    if similarityThreshold ≤ similarity then
      acc ++ [⟨chunk, similarity, acc.length + 1,
        if includeMetadata then vectorSearchMeta chunk else []⟩]
    else acc
  else acc

/-- The scoring/filter loop of `_perform_vector_search` as a fold of
`vectorSearchStep` starting from the empty result list. -/
def vectorSearchLoop (dist : List ℚ → List ℚ → ℚ) (queryEmbedding : List ℚ)
    (similarityThreshold : ℚ) (includeMetadata : Bool)
    (chunks : List StoredChunk) : List SearchResult :=
  chunks.foldl
    (vectorSearchStep dist queryEmbedding similarityThreshold includeMetadata)
    []

/-- `VectorRetriever._perform_vector_search` on the chunk list the store
returned (already distance-ordered and capped at `limit * 2` by the SQL
query): score, filter by threshold, truncate to `limit`. -/
def performVectorSearch (dist : List ℚ → List ℚ → ℚ)
    (queryEmbedding : List ℚ) (limit : Nat) (similarityThreshold : ℚ)
    (includeMetadata : Bool) (chunks : List StoredChunk) :
    List SearchResult :=
  (vectorSearchLoop dist queryEmbedding similarityThreshold includeMetadata
    chunks).take limit

/-- `VectorRetriever.search_similar_chunks`: embed the query
(`queryEmbedding` is `generate_single_embedding`'s result); on a falsy
vector return the empty, explained response; otherwise search and wrap. -/
def searchSimilarChunks (dist : List ℚ → List ℚ → ℚ)
    (queryEmbedding : Option (List ℚ)) (profileId : Nat) (limit : Nat)
    (similarityThreshold : ℚ) (includeMetadata : Bool)
    (chunks : List StoredChunk) : SearchResponse :=
  if !truthyEmb queryEmbedding then
    { results := []
      total_results := 0
      query_embedding := none
      metadata := [("error", .str (some "Failed to generate query embedding"))] }
  else
    let results := performVectorSearch dist (queryEmbedding.getD []) limit
      similarityThreshold includeMetadata chunks
    { results := results
      total_results := results.length
      query_embedding := queryEmbedding
      metadata := [("profile_id", .nat profileId),
                   ("similarity_threshold", .num similarityThreshold),
                   ("limit", .nat limit)] }

/-- The record returned by `get_profile_statistics`. -/
structure ProfileStatistics where
  total_chunks : Nat
  embedded_chunks : Nat
  total_documents : Nat
  processed_documents : Nat
  embedding_coverage : ℚ
  processing_coverage : ℚ
deriving Repr, DecidableEq

/-- `VectorRetriever.get_profile_statistics` on the four counts the
store queries return: the coverage ratios guard their denominators
(`x / y if y > 0 else 0`). -/
def getProfileStatistics (totalChunks embeddedChunks totalDocuments
    processedDocuments : Nat) : ProfileStatistics :=
  { total_chunks := totalChunks
    embedded_chunks := embeddedChunks
    total_documents := totalDocuments
    processed_documents := processedDocuments
    embedding_coverage :=
      if 0 < totalChunks then (embeddedChunks : ℚ) / totalChunks else 0
    processing_coverage :=
      if 0 < totalDocuments then (processedDocuments : ℚ) / totalDocuments
      else 0 }

/-! ## Hybrid retrieval (`HybridRetriever`)

`_combine_results` builds a Python dict keyed by chunk id; dicts
preserve insertion order, so the dict is modelled as an association
list with in-place overwrite (`mapSet`). -/

/-- `d[k] = v` on an insertion-ordered dict: overwrite in place, else
append. -/
def mapSet [DecidableEq κ] (m : List (κ × α)) (k : κ) (v : α) :
    List (κ × α) :=
  match m with
  | [] => [(k, v)]
  | (k', v') :: rest =>
    if k' = k then (k, v) :: rest else (k', v') :: mapSet rest k v

/-- Update the entry at key `k` (if present) in place. -/
def mapAdjust [DecidableEq κ] (m : List (κ × α)) (k : κ) (f : α → α) :
    List (κ × α) :=
  match m with
  | [] => []
  | (k0, v0) :: rest =>
    (if k0 = k then (k0, f v0) else (k0, v0)) :: mapAdjust rest k f

/-- A vector result as stored by the first phase of `_combine_results`
(`result.metadata["vector_score"] = result.similarity_score`; the score
itself is untouched). -/
def tagVectorScore (r : SearchResult) : SearchResult :=
  { r with metadata := mapSet r.metadata "vector_score" (.num r.similarity_score) }

/-- First phase of `_combine_results`: insert every vector result under
its chunk id. -/
def addVectorResult (m : List (Nat × SearchResult)) (r : SearchResult) :
    List (Nat × SearchResult) :=
  mapSet m r.chunk.id (tagVectorScore r)

/-- The combined entry for a chunk present in both result sets:
`existing.similarity_score * vector_weight + keyword.similarity_score *
keyword_weight`, with the raw keyword score recorded in metadata. -/
def combineScores (vectorWeight keywordWeight : ℚ)
    (existing r : SearchResult) : SearchResult :=
  { existing with
    similarity_score := existing.similarity_score * vectorWeight +
      r.similarity_score * keywordWeight
    metadata := mapSet existing.metadata "keyword_score"
      (.num r.similarity_score) }

/-- A keyword-only entry: `result.similarity_score *= keyword_weight`,
then `metadata["keyword_score"]` holds the *scaled* value (as in the
source). -/
def scaleKeyword (keywordWeight : ℚ) (r : SearchResult) : SearchResult :=
  { r with
    similarity_score := r.similarity_score * keywordWeight
    metadata := mapSet r.metadata "keyword_score"
      (.num (r.similarity_score * keywordWeight)) }

/-- Second phase of `_combine_results`: a keyword result either combines
with a present entry or is inserted scaled by `keyword_weight`. -/
def addKeywordResult (vectorWeight keywordWeight : ℚ)
    (m : List (Nat × SearchResult)) (r : SearchResult) :
    List (Nat × SearchResult) :=
  if (m.lookup r.chunk.id).isSome then
    mapAdjust m r.chunk.id fun existing =>
      combineScores vectorWeight keywordWeight existing r
  else
    mapSet m r.chunk.id (scaleKeyword keywordWeight r)

/-- The dict built by `HybridRetriever._combine_results`. -/
def combinedMap (vectorResults keywordResults : List SearchResult)
    (vectorWeight keywordWeight : ℚ) : List (Nat × SearchResult) :=
  keywordResults.foldl (addKeywordResult vectorWeight keywordWeight)
    (vectorResults.foldl addVectorResult [])

/-- `HybridRetriever._combine_results` (`list(combined_map.values())`). -/
def combineResults (vectorResults keywordResults : List SearchResult)
    (vectorWeight keywordWeight : ℚ) : List SearchResult :=
  (combinedMap vectorResults keywordResults vectorWeight keywordWeight).map
    Prod.snd

/-- Stable insertion of `x` into a descending-by-score list: `x` goes
after every earlier element whose score is `≥` its own. -/
def insertDesc (x : SearchResult) : List SearchResult → List SearchResult
  | [] => [x]
  | y :: ys =>
    if y.similarity_score < x.similarity_score then x :: y :: ys
    else y :: insertDesc x ys

/-- `combined_results.sort(key=lambda x: x.similarity_score,
reverse=True)` — a stable descending sort. -/
def sortByScoreDesc (l : List SearchResult) : List SearchResult :=
  l.foldr insertDesc []

/-- The fusion tail of `HybridRetriever.hybrid_search`, applied to the
two already-computed result lists: combine, sort by score descending,
truncate to `limit`, and wrap — the source mutates no `rank` field after
combining. -/
def hybridSearchCore (vectorResults keywordResults : List SearchResult)
    (limit : Nat) (vectorWeight keywordWeight : ℚ) : SearchResponse :=
  let combined :=
    combineResults vectorResults keywordResults vectorWeight keywordWeight
  let finalResults := (sortByScoreDesc combined).take limit
  { results := finalResults
    total_results := finalResults.length
    metadata := [("search_type", .str (some "hybrid")),
                 ("vector_weight", .num vectorWeight),
                 ("keyword_weight", .num keywordWeight),
                 ("vector_results", .nat vectorResults.length),
                 ("keyword_results", .nat keywordResults.length)] }

/-! ## Batching lemmas for `_generate_with_provider` -/

/-- The response one outcome contributes after
`_generate_batch_embeddings`'s exception handling. -/
def respOf (model provider : String) : PerCallOutcome → EmbeddingResponse
  | .error e => ⟨[], model, provider, none, some e⟩
  | .ok r => r

/-- Pair a text with its converted response. -/
def withResp (model provider : String) (tp : String × PerCallOutcome) :
    String × EmbeddingResponse :=
  (tp.1, respOf model provider tp.2)

theorem generateBatchEmbeddings_eq_map (model provider : String)
    (os : List PerCallOutcome) :
    generateBatchEmbeddings model provider os = os.map (respOf model provider) := by
  have hfun : (fun o => match o with
      | .error e => (⟨[], model, provider, none, some e⟩ : EmbeddingResponse)
      | .ok r => r) = respOf model provider := by
    funext o; cases o <;> rfl
  simp only [generateBatchEmbeddings, hfun]

theorem listBatchesGo_eq (bs : Nat) :
    ∀ (l : List α) (k : Nat) (acc : List α),
      listBatchesGo bs k acc l =
        (acc.reverse ++ l.take k) :: listBatches bs (l.drop k) := by
  intro l
  induction l with
  | nil => intro k acc; cases k <;> simp [listBatchesGo, listBatches]
  | cons x xs ih =>
    intro k acc
    cases k with
    | zero =>
      show acc.reverse :: listBatchesGo bs (bs - 1) [x] xs =
        (acc.reverse ++ (x :: xs).take 0) :: listBatches bs ((x :: xs).drop 0)
      simp only [List.take_zero, List.append_nil, List.drop_zero]
      rfl
    | succ k' =>
      show listBatchesGo bs k' (x :: acc) xs = _
      rw [ih k' (x :: acc)]
      simp

theorem listBatches_cons_eq (bs : Nat) (hbs : 1 ≤ bs) (x : α) (xs : List α) :
    listBatches bs (x :: xs) =
      (x :: xs).take bs :: listBatches bs ((x :: xs).drop bs) := by
  obtain ⟨b, rfl⟩ : ∃ b, bs = b + 1 := ⟨bs - 1, by omega⟩
  show listBatchesGo (b + 1) b [x] xs = _
  rw [listBatchesGo_eq (b + 1) xs b [x]]
  simp

theorem collectBatch_append (dims : Nat) (a b : List (String × EmbeddingResponse)) :
    ∀ i, collectBatch dims i (a ++ b) =
      ((collectBatch dims i a).1 ++ (collectBatch dims (i + a.length) b).1,
       (collectBatch dims i a).2.1 + (collectBatch dims (i + a.length) b).2.1,
       (collectBatch dims i a).2.2 ++ (collectBatch dims (i + a.length) b).2.2) := by
  induction a with
  | nil => intro i; simp [collectBatch]
  | cons hd tl ih =>
    intro i
    obtain ⟨t, er⟩ := hd
    have heq := ih (i + 1)
    have harith : i + 1 + tl.length = i + (tl.length + 1) := by omega
    rw [harith] at heq
    by_cases herr : truthyStr er.error <;>
      simp [collectBatch, herr, heq, Nat.add_assoc]

theorem providerBatchesGo_flat (dims : Nat) (model provider : String)
    (bs : Nat) (hbs : 1 ≤ bs) :
    ∀ (n : Nat) (items : List (String × PerCallOutcome)),
      items.length ≤ n → ∀ i,
      providerBatchesGo dims model provider i (listBatches bs items) =
        collectBatch dims i (items.map (withResp model provider)) := by
  intro n
  induction n with
  | zero =>
    intro items hn i
    have : items = [] := List.eq_nil_of_length_eq_zero (by omega)
    subst this
    simp [listBatches, providerBatchesGo, collectBatch]
  | succ n ih =>
    intro items hn i
    cases items with
    | nil => simp [listBatches, providerBatchesGo, collectBatch]
    | cons x xs =>
      rw [listBatches_cons_eq bs hbs x xs]
      have hn' : xs.length + 1 ≤ n + 1 := by simpa using hn
      have hlen : ((x :: xs).drop bs).length ≤ n := by
        simp only [List.length_drop, List.length_cons]
        omega
      show
        (let responses := generateBatchEmbeddings model provider
            (((x :: xs).take bs).map Prod.snd)
         let (es, tok, errs) := collectBatch dims i
            ((((x :: xs).take bs).map Prod.fst).zip responses)
         let (es', tok', errs') := providerBatchesGo dims model provider
            (i + ((x :: xs).take bs).length) (listBatches bs ((x :: xs).drop bs))
         (es ++ es', tok + tok', errs ++ errs')) = _
      rw [ih ((x :: xs).drop bs) hlen]
      simp only [generateBatchEmbeddings_eq_map, List.map_map]
      rw [List.zip_map']
      have hconv : (fun a => (Prod.fst a, (respOf model provider ∘ Prod.snd) a)) =
          withResp model provider := by
        funext tp; rfl
      rw [hconv]
      have hsplit : (x :: xs).map (withResp model provider) =
          ((x :: xs).take bs).map (withResp model provider) ++
            ((x :: xs).drop bs).map (withResp model provider) := by
        rw [← List.map_append, List.take_append_drop]
      rw [hsplit, collectBatch_append]
      simp [List.length_map]

/-- `_generate_with_provider` equals a single index-addressed pass over
all texts: batching only groups the work. -/
theorem generateWithProvider_eq_collect (dims : Nat) (model provider : String)
    (bs : Nat) (hbs : 1 ≤ bs) (items : List (String × PerCallOutcome)) :
    generateWithProvider dims model provider bs items =
      collectBatch dims 0 (items.map (withResp model provider)) :=
  providerBatchesGo_flat dims model provider bs hbs items.length items
    (Nat.le_refl _) 0

theorem collectBatch_embeddings_length (dims : Nat)
    (rs : List (String × EmbeddingResponse)) :
    ∀ i, (collectBatch dims i rs).1.length = rs.length := by
  induction rs with
  | nil => intro i; rfl
  | cons hd tl ih =>
    intro i
    obtain ⟨t, er⟩ := hd
    by_cases herr : truthyStr er.error <;>
      simp [collectBatch, herr, ih (i + 1)]

theorem collectBatch_embeddings_getElem (dims : Nat)
    (rs : List (String × EmbeddingResponse)) :
    ∀ (i j : Nat), (collectBatch dims i rs).1[j]? =
      (rs[j]?).map (fun tr =>
        if truthyStr tr.2.error then List.replicate dims (0 : ℚ)
        else tr.2.embedding) := by
  induction rs with
  | nil => intro i j; simp [collectBatch]
  | cons hd tl ih =>
    intro i j
    obtain ⟨t, er⟩ := hd
    cases j with
    | zero =>
      by_cases herr : truthyStr er.error <;> simp [collectBatch, herr]
    | succ j' =>
      by_cases herr : truthyStr er.error <;>
        simp [collectBatch, herr, ih (i + 1) j']

theorem collectBatch_errors_nil (dims : Nat)
    (rs : List (String × EmbeddingResponse))
    (hok : ∀ tr ∈ rs, truthyStr tr.2.error = false) :
    ∀ i, (collectBatch dims i rs).2.2 = [] := by
  induction rs with
  | nil => intro i; rfl
  | cons hd tl ih =>
    intro i
    obtain ⟨t, er⟩ := hd
    have h0 : truthyStr er.error = false := hok (t, er) (List.mem_cons_self _ _)
    have htl := ih (fun tr htr => hok tr (List.mem_cons_of_mem _ htr)) (i + 1)
    simp [collectBatch, h0, htl]

theorem collectBatch_errors_single (dims : Nat) :
    ∀ (rs : List (String × EmbeddingResponse)) (k : Nat)
      (tr : String × EmbeddingResponse),
      rs[k]? = some tr → truthyStr tr.2.error = true →
      (∀ j tr', j ≠ k → rs[j]? = some tr' → truthyStr tr'.2.error = false) →
      ∀ i, (collectBatch dims i rs).2.2 = [textErrorTag (i + k) tr.2.error] := by
  intro rs
  induction rs with
  | nil => intro k tr hk; simp at hk
  | cons hd tl ih =>
    intro k tr hk hfail hok i
    obtain ⟨t, er⟩ := hd
    cases k with
    | zero =>
      simp only [List.getElem?_cons_zero, Option.some.injEq] at hk
      subst hk
      have htl : (collectBatch dims (i + 1) tl).2.2 = [] := by
        refine collectBatch_errors_nil dims tl ?_ (i + 1)
        intro tr' htr'
        obtain ⟨j, hj⟩ := List.getElem?_of_mem htr'
        exact hok (j + 1) tr' (by omega)
          (by simpa using hj)
      simp [collectBatch, hfail, htl]
    | succ k' =>
      simp only [List.getElem?_cons_succ] at hk
      have h0 : truthyStr er.error = false :=
        hok 0 (t, er) (by omega) (by simp)
      have htl := ih k' tr hk hfail
        (fun j tr' hj hget => hok (j + 1) tr' (by omega) (by simpa using hget))
        (i + 1)
      have harith : i + 1 + k' = i + (k' + 1) := by omega
      rw [harith] at htl
      simp [collectBatch, h0, htl]

theorem getElem?_zip (l1 : List α) :
    ∀ (l2 : List β) (j : Nat),
      (l1.zip l2)[j]? =
        (l1[j]?).bind (fun a => (l2[j]?).map (fun b => (a, b))) := by
  induction l1 with
  | nil => intro l2 j; simp
  | cons a as ih =>
    intro l2 j
    cases l2 with
    | nil => simp
    | cons b bs =>
      cases j with
      | zero => simp
      | succ j' => simpa using ih bs j'

theorem one_le_effectiveBatchSize (b : Option Nat) :
    1 ≤ effectiveBatchSize b := by
  rcases b with _ | _ | n <;> simp [effectiveBatchSize]

/-! ## Claim C1: per-text provider failures are isolated -/

/-- C1: when, among the provider calls for `texts`, exactly the call at
index `k` fails (raises, or returns a response with a truthy error) and
every other call succeeds, `_generate_with_provider` returns one vector
per text with every successful vector in its original slot, a
zero-vector of the configured dimensionality in slot `k`, and an error
list holding exactly one entry tagged with index `k`; no batch (current
or subsequent, for any batch size) is aborted. -/
theorem claim_C1_per_text_failure_isolated
    (dims bs k : Nat) (model provider : String)
    (texts : List String) (outcomes : List PerCallOutcome)
    (ok : PerCallOutcome)
    (hbs : 1 ≤ bs) (hlen : outcomes.length = texts.length)
    (hko : outcomes[k]? = some ok)
    (hfail : truthyStr (respOf model provider ok).error = true)
    (hsucc : ∀ (j : Nat) (o' : PerCallOutcome), j ≠ k →
      outcomes[j]? = some o' →
      truthyStr (respOf model provider o').error = false) :
    (generateWithProvider dims model provider bs (texts.zip outcomes)).1.length
        = texts.length ∧
    (generateWithProvider dims model provider bs (texts.zip outcomes)).1[k]? =
      some (List.replicate dims 0) ∧
    (∀ (j : Nat) (o' : PerCallOutcome), j ≠ k → outcomes[j]? = some o' →
      (generateWithProvider dims model provider bs (texts.zip outcomes)).1[j]? =
        some ((respOf model provider o').embedding)) ∧
    (generateWithProvider dims model provider bs (texts.zip outcomes)).2.2 =
      [textErrorTag k ((respOf model provider ok).error)] := by
  rw [generateWithProvider_eq_collect dims model provider bs hbs]
  have hzlen : (texts.zip outcomes).length = texts.length := by
    simp [List.length_zip, hlen]
  have hrs : ∀ (j : Nat),
      ((texts.zip outcomes).map (withResp model provider))[j]? =
      (texts[j]?).bind (fun t => (outcomes[j]?).map
        (fun o => (t, respOf model provider o))) := by
    intro j
    rw [List.getElem?_map, getElem?_zip]
    cases texts[j]? <;> cases outcomes[j]? <;> simp [withResp]
  have hklt : k < outcomes.length := by
    by_contra h
    rw [List.getElem?_eq_none (by omega)] at hko
    cases hko
  obtain ⟨tk, htk⟩ : ∃ t, texts[k]? = some t :=
    ⟨_, List.getElem?_eq_getElem (by omega)⟩
  refine ⟨?_, ?_, ?_, ?_⟩
  · rw [collectBatch_embeddings_length]
    simp [hzlen]
  · rw [collectBatch_embeddings_getElem, hrs k, htk, hko]
    simp [hfail]
  · intro j o' hj hget
    have hjlt : j < outcomes.length := by
      by_contra h
      rw [List.getElem?_eq_none (by omega)] at hget
      cases hget
    obtain ⟨tj, htj⟩ : ∃ t, texts[j]? = some t :=
      ⟨_, List.getElem?_eq_getElem (by omega)⟩
    rw [collectBatch_embeddings_getElem, hrs j, htj, hget]
    simp [hsucc j o' hj hget]
  · have := collectBatch_errors_single dims
      ((texts.zip outcomes).map (withResp model provider)) k
      (tk, respOf model provider ok)
      (by rw [hrs k, htk, hko]; rfl)
      hfail
      (by
        intro j tr' hj hget
        rw [hrs j] at hget
        rcases hj' : texts[j]? with _ | tj
        · rw [hj'] at hget; cases hget
        · rw [hj'] at hget
          rcases ho' : outcomes[j]? with _ | o'
          · rw [ho'] at hget; cases hget
          · rw [ho'] at hget
            simp only [Option.map_some, Option.some_bind] at hget
            cases hget
            exact hsucc j o' hj ho')
      0
    rw [this]
    simp

/-! ## Claim C6: output order matches input order -/

/-- C6: `generate_embeddings` returns one vector per input text, and the
vector in slot `j` is determined by the provider outcome for text `j`
(the successful vector, or the zero-vector fallback) — index-addressed,
for every assignment of per-call outcomes and any batch size.  Per-call
exceptions are captured per item by the gather, so the provider path
always returns an index-aligned list. -/
theorem claim_C6_order_preserved
    (dims : Nat) (dp dm : String) (texts : List String)
    (provider model : Option String) (batchSize : Option Nat)
    (outcomes : List PerCallOutcome)
    (localModel : Option (String → List ℚ)) (localFail : Option String)
    (hlen : outcomes.length = texts.length) :
    (generateEmbeddings dims dp dm texts provider model batchSize
        (.ok outcomes) localModel localFail).embeddings.length = texts.length ∧
    ∀ (j : Nat) (o' : PerCallOutcome), outcomes[j]? = some o' →
      (generateEmbeddings dims dp dm texts provider model batchSize
          (.ok outcomes) localModel localFail).embeddings[j]? =
        some (if truthyStr
            (respOf (orDefault model dm) (orDefault provider dp) o').error
          then List.replicate dims 0
          else (respOf (orDefault model dm) (orDefault provider dp) o').embedding) := by
  cases texts with
  | nil =>
    have houtcomes : outcomes = [] := List.eq_nil_of_length_eq_zero hlen
    subst houtcomes
    constructor
    · simp [generateEmbeddings]
    · intro j o' hget
      simp at hget
  | cons t ts =>
    have hbs := one_le_effectiveBatchSize batchSize
    have hgwp := generateWithProvider_eq_collect dims (orDefault model dm)
      (orDefault provider dp) (effectiveBatchSize batchSize) hbs
      ((t :: ts).zip outcomes)
    have hzlen : ((t :: ts).zip outcomes).length = (t :: ts).length := by
      simp [List.length_zip, hlen]
    have hlength :
        (generateWithProvider dims (orDefault model dm) (orDefault provider dp)
          (effectiveBatchSize batchSize) ((t :: ts).zip outcomes)).1.length =
          (t :: ts).length := by
      rw [hgwp, collectBatch_embeddings_length]
      simp [hzlen]
    have hne :
        (generateWithProvider dims (orDefault model dm) (orDefault provider dp)
          (effectiveBatchSize batchSize) ((t :: ts).zip outcomes)).1.isEmpty
          = false := by
      cases hcase : (generateWithProvider dims (orDefault model dm)
          (orDefault provider dp) (effectiveBatchSize batchSize)
          ((t :: ts).zip outcomes)).1 with
      | nil => rw [hcase] at hlength; simp at hlength
      | cons a as => rfl
    have hemb :
        (generateEmbeddings dims dp dm (t :: ts) provider model batchSize
            (.ok outcomes) localModel localFail).embeddings =
          (generateWithProvider dims (orDefault model dm) (orDefault provider dp)
            (effectiveBatchSize batchSize) ((t :: ts).zip outcomes)).1 := by
      simp only [generateEmbeddings]
      simp [hne]
    constructor
    · rw [hemb, hlength]
    · intro j o' hget
      have hjlt : j < outcomes.length := by
        by_contra h
        rw [List.getElem?_eq_none (by omega)] at hget
        cases hget
      obtain ⟨tj, htj⟩ : ∃ x, (t :: ts)[j]? = some x :=
        ⟨_, List.getElem?_eq_getElem (by omega)⟩
      rw [hemb, hgwp, collectBatch_embeddings_getElem]
      rw [List.getElem?_map, getElem?_zip, htj, hget]
      simp [withResp]

/-- Witness for C1 and C6's hypotheses: three texts whose middle
provider call raises; slots 0 and 2 keep their vectors, slot 1 is the
zero-vector, and one error tagged with index 1 is recorded. -/
theorem claim_C1_witness :
    (1 : Nat) ≤ 2 ∧
    (generateWithProvider 3 "m" "p" 2
      (["a", "b", "c"].zip
        [.ok ⟨[1], "m", "p", none, none⟩,
         .error "boom",
         .ok ⟨[2], "m", "p", none, none⟩])).1.length = 3 ∧
    (generateWithProvider 3 "m" "p" 2
      (["a", "b", "c"].zip
        [.ok ⟨[1], "m", "p", none, none⟩,
         .error "boom",
         .ok ⟨[2], "m", "p", none, none⟩])).1[1]? =
      some (List.replicate 3 0) ∧
    (generateWithProvider 3 "m" "p" 2
      (["a", "b", "c"].zip
        [.ok ⟨[1], "m", "p", none, none⟩,
         .error "boom",
         .ok ⟨[2], "m", "p", none, none⟩])).2.2 = ["Text 1: boom"] := by
  have h := claim_C1_per_text_failure_isolated 3 2 1 "m" "p"
    ["a", "b", "c"]
    [.ok ⟨[1], "m", "p", none, none⟩,
     .error "boom",
     .ok ⟨[2], "m", "p", none, none⟩]
    (.error "boom")
    (by decide) rfl rfl (by decide)
    (by
      intro j o' hj hget
      match j, hj, hget with
      | 0, hj, hget => cases hget; decide
      | 2, hj, hget => cases hget; decide
      | (n + 3), hj, hget => simp at hget)
  exact ⟨by decide, h.1, h.2.1, h.2.2.2⟩

/-- Witness for C6 at the same concrete input. -/
theorem claim_C6_witness :
    (generateEmbeddings 3 "openai" "m" ["a", "b"] none none none
      (.ok [.ok ⟨[5], "m", "openai", none, none⟩, .error "down"])
      none none).embeddings.length = 2 ∧
    (generateEmbeddings 3 "openai" "m" ["a", "b"] none none none
      (.ok [.ok ⟨[5], "m", "openai", none, none⟩, .error "down"])
      none none).embeddings[1]? = some (List.replicate 3 0) := by
  have h := claim_C6_order_preserved 3 "openai" "m" ["a", "b"] none none none
    [.ok ⟨[5], "m", "openai", none, none⟩, .error "down"] none none rfl
  refine ⟨h.1, ?_⟩
  have h2 := h.2 1 (.error "down") rfl
  rw [h2]
  decide

/-! ## Claim C10: a fallback success still yields `None` -/

/-- C10: when the whole provider path raises (an error entry is
recorded) and the local fallback then embeds the text successfully,
`generate_single_embedding` returns no value even though the result's
`embeddings` holds a valid fallback vector — the vector is returned only
when `embeddings` is non-empty *and* `errors` is empty. -/
theorem claim_C10_single_embedding_none (dims : Nat) (dp dm text : String)
    (provider model : Option String) (msg : String) (enc : String → List ℚ) :
    generateSingleEmbedding dims dp dm text provider model (.error msg)
        (some enc) none = none ∧
    (generateEmbeddings dims dp dm [text] provider model none (.error msg)
        (some enc) none).embeddings = [enc text] ∧
    (generateEmbeddings dims dp dm [text] provider model none (.error msg)
        (some enc) none).errors = ["Provider embedding failed: " ++ msg] := by
  refine ⟨?_, ?_, ?_⟩ <;>
    simp [generateSingleEmbedding, generateEmbeddings, generateLocalEmbeddings,
      effectiveBatchSize, listBatches, listBatchesGo]

/-! ## Chunk-size lemmas for `chunk_text` (claim C2) -/

theorem pyStrip_length_le (l : List Char) : (pyStrip l).length ≤ l.length := by
  unfold pyStrip
  have h1 : (l.dropWhile pyWs).length ≤ l.length :=
    (List.dropWhile_sublist pyWs).length_le
  have h2 : (((l.dropWhile pyWs).reverse).dropWhile pyWs).length ≤
      (l.dropWhile pyWs).reverse.length :=
    (List.dropWhile_sublist pyWs).length_le
  simp only [List.length_reverse] at h2 ⊢
  omega

theorem lastSpaceIdx_lt :
    ∀ (l : List Char) (i : Nat), lastSpaceIdx l = some i → i < l.length := by
  intro l
  induction l with
  | nil => intro i h; cases h
  | cons c rest ih =>
    intro i h
    have hdef : lastSpaceIdx (c :: rest) =
        (match lastSpaceIdx rest with
         | some j => some (j + 1)
         | none => if c = ' ' then some 0 else none) := rfl
    rw [hdef] at h
    cases hrec : lastSpaceIdx rest with
    | some j =>
      rw [hrec] at h
      simp only [Option.some.injEq] at h
      have := ih j hrec
      simp only [List.length_cons]
      omega
    | none =>
      rw [hrec] at h
      by_cases hsp : c = ' '
      · rw [if_pos hsp] at h
        simp only [Option.some.injEq] at h
        simp only [List.length_cons]
        omega
      · rw [if_neg hsp] at h
        cases h

theorem rfindSpace_lt_stop (text : List Char) (start stop ls : Nat)
    (h : rfindSpace text start stop = some ls) : ls < stop := by
  unfold rfindSpace at h
  cases hl : lastSpaceIdx ((text.drop start).take (stop - start)) with
  | none => rw [hl] at h; cases h
  | some i =>
    rw [hl] at h
    have h2 : i + start = ls := Option.some.inj h
    have hlt := lastSpaceIdx_lt _ i hl
    have hle : ((text.drop start).take (stop - start)).length ≤ stop - start :=
      List.length_take_le _ _
    omega

theorem backoffEnd_le (cfg : TextChunkerCfg) (text : List Char)
    (start end0 : Nat) : backoffEnd cfg text start end0 ≤ end0 := by
  unfold backoffEnd
  by_cases h : end0 < text.length
  · rw [if_pos h]
    cases hf : rfindSpace text start end0 with
    | none => exact Nat.le_refl end0
    | some ls =>
      show (if start + cfg.min_chunk_size < ls then ls else end0) ≤ end0
      by_cases hls : start + cfg.min_chunk_size < ls
      · rw [if_pos hls]
        exact Nat.le_of_lt (rfindSpace_lt_stop text start end0 ls hf)
      · rw [if_neg hls]
  · rw [if_neg h]

theorem splitOversizedGo_content_le (cfg : TextChunkerCfg)
    (content : List Char) (base : Nat) :
    ∀ (fuel start : Nat) (c : TextChunk),
      c ∈ splitOversizedGo cfg content base fuel start →
      c.content.length ≤ cfg.max_chunk_size := by
  intro fuel
  induction fuel with
  | zero => intro start c hc; cases hc
  | succ fuel ih =>
    intro start c hc
    rw [splitOversizedGo] at hc
    by_cases hlt : start < content.length
    · simp only [if_pos hlt] at hc
      set end1 := backoffEnd cfg content start
        (min (start + cfg.max_chunk_size) content.length) with hend1
      by_cases hemp :
          (pyStrip ((content.drop start).take (end1 - start))).isEmpty
      · simp only [hemp, if_true] at hc
        exact ih end1 c hc
      · simp only [hemp, Bool.false_eq_true, if_false] at hc
        rcases List.mem_cons.mp hc with rfl | hc'
        · show (pyStrip ((content.drop start).take (end1 - start))).length ≤ _
          have h1 := pyStrip_length_le ((content.drop start).take (end1 - start))
          have h2 : ((content.drop start).take (end1 - start)).length ≤
              end1 - start := List.length_take_le _ _
          have h3 : end1 ≤ min (start + cfg.max_chunk_size) content.length :=
            backoffEnd_le cfg content start _
          have h4 : min (start + cfg.max_chunk_size) content.length ≤
              start + cfg.max_chunk_size := Nat.min_le_left _ _
          omega
        · exact ih end1 c hc'
    · simp only [if_neg hlt] at hc
      cases hc

theorem filterChunksBySize_content_le (cfg : TextChunkerCfg) :
    ∀ (l : List TextChunk) (c : TextChunk), c ∈ filterChunksBySize cfg l →
      c.content.length ≤ cfg.max_chunk_size := by
  intro l
  induction l with
  | nil => intro c hc; cases hc
  | cons hd tl ih =>
    intro c hc
    rw [filterChunksBySize] at hc
    by_cases hB : hd.content.length ≤ cfg.max_chunk_size
    · by_cases hA : cfg.min_chunk_size ≤ hd.content.length
      · rw [if_pos (by simp [hA, hB])] at hc
        rcases List.mem_cons.mp hc with rfl | hc'
        · exact hB
        · exact ih c hc'
      · rw [if_neg (by simp [hA]), if_neg (by omega)] at hc
        exact ih c hc
    · rw [if_neg (by simp [hB]), if_pos (by omega)] at hc
      rcases List.mem_append.mp hc with hc' | hc'
      · exact splitOversizedGo_content_le cfg hd.content hd.start_char _ _ c hc'
      · exact ih c hc'

theorem reindexChunks_content_mem (l : List TextChunk) (c : TextChunk)
    (hc : c ∈ reindexChunks l) : ∃ c' ∈ l, c.content = c'.content := by
  unfold reindexChunks at hc
  obtain ⟨⟨i, c'⟩, hmem, rfl⟩ := List.mem_map.mp hc
  refine ⟨c', ?_, rfl⟩
  have hsnd : (i, c').2 ∈ l.enum.map Prod.snd :=
    List.mem_map_of_mem Prod.snd hmem
  rw [List.enum_map_snd] at hsnd
  exact hsnd

/-! ## Cleaning and strip lemmas (claim C2, short-input behaviour) -/

theorem collapseWsGo_length_le :
    ∀ (l : List Char) (b : Bool), (collapseWsGo b l).length ≤ l.length := by
  intro l
  induction l with
  | nil => intro b; simp [collapseWsGo]
  | cons c rest ih =>
    intro b
    by_cases hws : pyWs c
    · have h1 := ih true
      cases b <;> simp [collapseWsGo, hws] <;> omega
    · have h1 := ih false
      simp [collapseWsGo, hws]
      omega

theorem collapseWsGo_mem :
    ∀ (l : List Char) (b : Bool) (c : Char), c ∈ collapseWsGo b l →
      c = ' ' ∨ pyWs c = false := by
  intro l
  induction l with
  | nil => intro b c hc; exact absurd hc (List.not_mem_nil c)
  | cons c0 rest ih =>
    intro b c hc
    by_cases hws : pyWs c0
    · cases b
      · simp only [collapseWsGo, hws, if_true, Bool.false_eq_true, if_false,
          List.mem_cons] at hc
        rcases hc with rfl | hc'
        · exact Or.inl rfl
        · exact ih true c hc'
      · simp only [collapseWsGo, hws, if_true] at hc
        exact ih true c hc
    · simp only [collapseWsGo, hws, Bool.false_eq_true, if_false,
        List.mem_cons] at hc
      rcases hc with rfl | hc'
      · exact Or.inr (by simpa using hws)
      · exact ih false c hc'

theorem mem_pyStrip (l : List Char) (c : Char) (h : c ∈ pyStrip l) :
    c ∈ l := by
  unfold pyStrip at h
  have h1 : c ∈ ((l.dropWhile pyWs).reverse).dropWhile pyWs :=
    List.mem_reverse.mp h
  have h2 : c ∈ (l.dropWhile pyWs).reverse :=
    (List.dropWhile_sublist pyWs).subset h1
  have h3 : c ∈ l.dropWhile pyWs := List.mem_reverse.mp h2
  exact (List.dropWhile_sublist pyWs).subset h3

theorem replaceCR_eq_self : ∀ (l : List Char), '\r' ∉ l → replaceCR l = l := by
  intro l
  induction l with
  | nil => intro _; rfl
  | cons c rest ih =>
    intro h
    have hc : c ≠ '\r' := fun hc => h (by rw [hc]; exact List.mem_cons_self _ _)
    have hrest : '\r' ∉ rest := fun hr => h (List.mem_cons_of_mem _ hr)
    rw [replaceCR.eq_def]
    split <;> simp_all

theorem splitOnNlNlGo_no_nl :
    ∀ (l : List Char) (acc : List Char), '\n' ∉ l →
      splitOnNlNlGo acc l = [acc.reverse ++ l] := by
  intro l
  induction l with
  | nil => intro acc _; simp [splitOnNlNlGo]
  | cons c rest ih =>
    intro acc h
    have hc : c ≠ '\n' := fun hc => h (by rw [hc]; exact List.mem_cons_self _ _)
    have hrest : '\n' ∉ rest := fun hr => h (List.mem_cons_of_mem _ hr)
    rw [splitOnNlNlGo.eq_def]
    split <;> simp_all [ih (c :: acc) hrest]

theorem collapse_no_ws_survivor (l : List Char) (c : Char)
    (hws : pyWs c = true) (hsp : c ≠ ' ') :
    c ∉ removeControl (collapseWs l) := by
  intro hmem
  have h1 : c ∈ collapseWs l := (List.mem_filter.mp hmem).1
  rcases collapseWsGo_mem l false c h1 with h | h
  · exact hsp h
  · rw [hws] at h; cases h

theorem cleanText_eq_strip_clean (l : List Char) :
    cleanText l = pyStrip (removeControl (collapseWs l)) := by
  unfold cleanText
  rw [replaceCR_eq_self (removeControl (collapseWs l))
    (collapse_no_ws_survivor l '\r' (by decide) (by decide))]

theorem cleanText_no_nl (l : List Char) : '\n' ∉ cleanText l := by
  rw [cleanText_eq_strip_clean]
  intro h
  exact collapse_no_ws_survivor l '\n' (by decide) (by decide) (mem_pyStrip _ _ h)

theorem cleanText_length_le (l : List Char) :
    (cleanText l).length ≤ l.length := by
  rw [cleanText_eq_strip_clean]
  have h1 := pyStrip_length_le (removeControl (collapseWs l))
  have h2 : (removeControl (collapseWs l)).length ≤ (collapseWs l).length :=
    List.length_filter_le _ _
  have h3 : (collapseWs l).length ≤ l.length := collapseWsGo_length_le l false
  omega

theorem dropWhile_dropWhile (p : α → Bool) :
    ∀ (l : List α), (l.dropWhile p).dropWhile p = l.dropWhile p := by
  intro l
  induction l with
  | nil => rfl
  | cons c rest ih =>
    by_cases hp : p c
    · rw [List.dropWhile_cons_of_pos hp]
      exact ih
    · rw [List.dropWhile_cons_of_neg hp, List.dropWhile_cons_of_neg hp]

theorem head?_dropWhile (p : α → Bool) :
    ∀ (l : List α) (c : α), (l.dropWhile p).head? = some c → p c = false := by
  intro l
  induction l with
  | nil => intro c h; cases h
  | cons c0 rest ih =>
    intro c h
    by_cases hp : p c0
    · rw [List.dropWhile_cons_of_pos hp] at h
      exact ih c h
    · rw [List.dropWhile_cons_of_neg hp] at h
      cases h
      simpa using hp

theorem dropWhile_eq_self_of_head (p : α → Bool) (l : List α)
    (h : ∀ c, l.head? = some c → p c = false) : l.dropWhile p = l := by
  cases l with
  | nil => rfl
  | cons c rest =>
    exact List.dropWhile_cons_of_neg (by simp [h c rfl])

theorem pyStrip_pyStrip (l : List Char) : pyStrip (pyStrip l) = pyStrip l := by
  have step1 : (pyStrip l).dropWhile pyWs = pyStrip l := by
    apply dropWhile_eq_self_of_head
    intro c hc
    obtain ⟨t, ht⟩ :=
      List.dropWhile_suffix (l := (l.dropWhile pyWs).reverse) pyWs
    have hrev := congrArg List.reverse ht
    rw [List.reverse_append, List.reverse_reverse] at hrev
    have hAh : (l.dropWhile pyWs).head? = some c := by
      rw [← hrev, List.head?_append]
      have hc' : ((List.dropWhile pyWs
          (l.dropWhile pyWs).reverse).reverse).head? = some c := hc
      rw [hc']
      rfl
    exact head?_dropWhile pyWs l c hAh
  show (((pyStrip l).dropWhile pyWs).reverse.dropWhile pyWs).reverse = pyStrip l
  rw [step1]
  show ((((List.dropWhile pyWs
    (l.dropWhile pyWs).reverse).reverse).reverse).dropWhile pyWs).reverse =
      pyStrip l
  rw [List.reverse_reverse, dropWhile_dropWhile]
  rfl

theorem cleanText_pyStrip (l : List Char) :
    pyStrip (cleanText l) = cleanText l := by
  unfold cleanText
  exact pyStrip_pyStrip _

theorem chunkByParagraphs_of_no_nl (cfg : TextChunkerCfg) (t : List Char)
    (hnl : '\n' ∉ t) (hstrip : pyStrip t = t) :
    chunkByParagraphs cfg t =
      if t.isEmpty then [] else [⟨t, 0, 0, t.length⟩] := by
  unfold chunkByParagraphs
  rw [splitOnNlNl, splitOnNlNlGo_no_nl t [] hnl]
  simp only [List.reverse_nil, List.nil_append]
  cases t with
  | nil => rfl
  | cons c rest =>
    simp [chunkParasGo, hstrip]

theorem filterChunksBySize_drops_small (cfg : TextChunkerCfg) (c : TextChunk)
    (hmin : c.content.length < cfg.min_chunk_size)
    (hminmax : cfg.min_chunk_size ≤ cfg.max_chunk_size) :
    filterChunksBySize cfg [c] = [] := by
  rw [filterChunksBySize]
  rw [if_neg (by simp; omega), if_neg (by omega)]
  rfl

theorem chunkText_short_input_empty (cfg : TextChunkerCfg) (text : List Char)
    (hp : cfg.preserve_paragraphs = true)
    (hmm : cfg.min_chunk_size ≤ cfg.max_chunk_size)
    (hshort : text.length < cfg.min_chunk_size) :
    chunkText cfg text = [] := by
  unfold chunkText
  by_cases hstrip : (pyStrip text).isEmpty
  · rw [if_pos hstrip]
  · rw [if_neg hstrip]
    have hnl : '\n' ∉ cleanText text := cleanText_no_nl text
    have hps : pyStrip (cleanText text) = cleanText text := cleanText_pyStrip text
    have hlen : (cleanText text).length ≤ text.length := cleanText_length_le text
    have hsingle := chunkByParagraphs_of_no_nl cfg (cleanText text) hnl hps
    cases hcl : cleanText text with
    | nil =>
      rw [hcl] at hsingle
      simp [hp, hsingle, hcl, chunkBySentences, splitSentences,
        splitSentencesGo, chunkSentsGo, chunkByCharacters, chunkByCharactersGo,
        filterChunksBySize, reindexChunks, pyStrip]
    | cons ch rest =>
      rw [hcl] at hsingle
      simp only [List.isEmpty_cons, Bool.false_eq_true, if_false] at hsingle
      have hdrop : filterChunksBySize cfg
          [⟨ch :: rest, 0, 0, (ch :: rest).length⟩] = [] := by
        apply filterChunksBySize_drops_small
        · show (ch :: rest).length < cfg.min_chunk_size
          rw [← hcl]
          omega
        · exact hmm
      have hdrop' : filterChunksBySize cfg
          [⟨ch :: rest, 0, 0, rest.length + 1⟩] = [] := by
        simpa using hdrop
      simp [hp, hsingle, hcl, hdrop', reindexChunks]

theorem filterChunksBySize_characterization (cfg : TextChunkerCfg) :
    ∀ (l : List TextChunk) (c : TextChunk), c ∈ filterChunksBySize cfg l →
      (c ∈ l ∧ cfg.min_chunk_size ≤ c.content.length ∧
        c.content.length ≤ cfg.max_chunk_size) ∨
      (∃ c' ∈ l, cfg.max_chunk_size < c'.content.length ∧
        c ∈ splitOversizedChunk cfg c') := by
  intro l
  induction l with
  | nil => intro c hc; cases hc
  | cons hd tl ih =>
    intro c hc
    rw [filterChunksBySize] at hc
    by_cases hB : hd.content.length ≤ cfg.max_chunk_size
    · by_cases hA : cfg.min_chunk_size ≤ hd.content.length
      · rw [if_pos (by simp [hA, hB])] at hc
        rcases List.mem_cons.mp hc with rfl | hc'
        · exact Or.inl ⟨List.mem_cons_self _ _, hA, hB⟩
        · rcases ih c hc' with ⟨hm, h1, h2⟩ | ⟨c', hm, h1, h2⟩
          · exact Or.inl ⟨List.mem_cons_of_mem _ hm, h1, h2⟩
          · exact Or.inr ⟨c', List.mem_cons_of_mem _ hm, h1, h2⟩
      · rw [if_neg (by simp [hA]), if_neg (by omega)] at hc
        rcases ih c hc with ⟨hm, h1, h2⟩ | ⟨c', hm, h1, h2⟩
        · exact Or.inl ⟨List.mem_cons_of_mem _ hm, h1, h2⟩
        · exact Or.inr ⟨c', List.mem_cons_of_mem _ hm, h1, h2⟩
    · rw [if_neg (by simp [hB]), if_pos (by omega)] at hc
      rcases List.mem_append.mp hc with hc' | hc'
      · exact Or.inr ⟨hd, List.mem_cons_self _ _, by omega, hc'⟩
      · rcases ih c hc' with ⟨hm, h1, h2⟩ | ⟨c', hm, h1, h2⟩
        · exact Or.inl ⟨List.mem_cons_of_mem _ hm, h1, h2⟩
        · exact Or.inr ⟨c', List.mem_cons_of_mem _ hm, h1, h2⟩

/-! ## Claim C2: chunk size bounds -/

/-- C2 (refuted as stated): with `min_chunk_size = 3`,
`max_chunk_size = 5`, `chunk_size = 10` on input `"abcdef"` (length 6,
not shorter than `min_chunk_size`), `chunk_text` outputs the chunks
`"abcde"` and `"f"`; the trailing fragment `"f"` of re-splitting the
oversized whole-input chunk violates the claimed lower bound, and the
claimed exemption does not apply. -/
theorem claim_C2_counterexample :
    ¬ (∀ c ∈ chunkText
        { chunk_size := 10, chunk_overlap := 0, min_chunk_size := 3,
          max_chunk_size := 5 } ['a', 'b', 'c', 'd', 'e', 'f'],
        ((3 ≤ c.content.length ∧ c.content.length ≤ 5) ∨
          ['a', 'b', 'c', 'd', 'e', 'f'].length < 3)) := by decide

/-- C2 (amended): every chunk `chunk_text` outputs is at most
`max_chunk_size` long.  The lower bound is not an invariant: the size
filter keeps a chunk unchanged iff `min_chunk_size ≤ len ≤
max_chunk_size`, re-splits oversized chunks (whose fragments may be
shorter than `min_chunk_size`), and silently drops undersized chunks —
in particular (with the paragraph-preserving default and
`min_chunk_size ≤ max_chunk_size`) an input shorter than
`min_chunk_size` yields no chunks at all rather than one exempted
chunk. -/
theorem claim_C2_amended (cfg : TextChunkerCfg) (text : List Char) :
    (∀ c ∈ chunkText cfg text, c.content.length ≤ cfg.max_chunk_size) ∧
    (∀ (l : List TextChunk) (c : TextChunk), c ∈ filterChunksBySize cfg l →
      (c ∈ l ∧ cfg.min_chunk_size ≤ c.content.length ∧
        c.content.length ≤ cfg.max_chunk_size) ∨
      (∃ c' ∈ l, cfg.max_chunk_size < c'.content.length ∧
        c ∈ splitOversizedChunk cfg c')) ∧
    (∀ c : TextChunk, c.content.length < cfg.min_chunk_size →
      cfg.min_chunk_size ≤ cfg.max_chunk_size →
      filterChunksBySize cfg [c] = []) ∧
    (cfg.preserve_paragraphs = true →
      cfg.min_chunk_size ≤ cfg.max_chunk_size →
      text.length < cfg.min_chunk_size → chunkText cfg text = []) := by
  refine ⟨?_, filterChunksBySize_characterization cfg,
    fun c h1 h2 => filterChunksBySize_drops_small cfg c h1 h2,
    fun h1 h2 h3 => chunkText_short_input_empty cfg text h1 h2 h3⟩
  intro c hc
  unfold chunkText at hc
  by_cases hstrip : (pyStrip text).isEmpty
  · rw [if_pos hstrip] at hc
    cases hc
  · rw [if_neg hstrip] at hc
    obtain ⟨c', hc', heq⟩ := reindexChunks_content_mem _ c hc
    rw [heq]
    exact filterChunksBySize_content_le cfg _ c' hc'

/-- Witness for C2 (amended) at a concrete configuration: a two-char
input below `min_chunk_size = 3` yields no chunks, and an undersized
chunk is dropped by the size filter. -/
theorem claim_C2_witness :
    chunkText
      { chunk_size := 10, chunk_overlap := 0, min_chunk_size := 3,
        max_chunk_size := 5 } ['a', 'b'] = [] ∧
    filterChunksBySize
      { chunk_size := 10, chunk_overlap := 0, min_chunk_size := 3,
        max_chunk_size := 5 } [⟨['a'], 0, 0, 1⟩] = [] :=
  ⟨(claim_C2_amended
      { chunk_size := 10, chunk_overlap := 0, min_chunk_size := 3,
        max_chunk_size := 5 } ['a', 'b']).2.2.2 rfl (by decide) (by decide),
   (claim_C2_amended
      { chunk_size := 10, chunk_overlap := 0, min_chunk_size := 3,
        max_chunk_size := 5 } ['a', 'b']).2.2.1 ⟨['a'], 0, 0, 1⟩
     (by decide) (by decide)⟩

/-! ## Claim C9: profile statistics coverage ratios -/

/-- C9: `get_profile_statistics` returns
`embedding_coverage = embedded_chunks / total_chunks` and
`processing_coverage = processed_documents / total_documents`, each
exactly `0` when its denominator is `0`; a profile with zero documents
and zero chunks yields both ratios `0` with no division fault (the
guarded branch never divides). -/
theorem claim_C9_coverage_ratios (tc ec td pd : Nat) :
    (tc = 0 → (getProfileStatistics tc ec td pd).embedding_coverage = 0) ∧
    (0 < tc →
      (getProfileStatistics tc ec td pd).embedding_coverage = (ec : ℚ) / tc) ∧
    (td = 0 → (getProfileStatistics tc ec td pd).processing_coverage = 0) ∧
    (0 < td →
      (getProfileStatistics tc ec td pd).processing_coverage = (pd : ℚ) / td) := by
  refine ⟨fun h => ?_, fun h => ?_, fun h => ?_, fun h => ?_⟩ <;>
    simp [getProfileStatistics, h]

/-- Witness for C9 at the zero-document, zero-chunk profile. -/
theorem claim_C9_witness :
    (getProfileStatistics 0 0 0 0).embedding_coverage = 0 ∧
    (getProfileStatistics 0 0 0 0).processing_coverage = 0 :=
  ⟨(claim_C9_coverage_ratios 0 0 0 0).1 rfl,
   (claim_C9_coverage_ratios 0 0 0 0).2.2.1 rfl⟩

/-! ## Claim C8: query-embedding failure short-circuits -/

/-- C8: when embedding the query produces no vector (a falsy
`query_embedding`), `search_similar_chunks` returns a `SearchResponse`
with empty results, `total_results = 0` and an explanatory `error`
metadata entry; the function is total, so no exception is raised. -/
theorem claim_C8_embedding_failure_empty_response
    (dist : List ℚ → List ℚ → ℚ) (q : Option (List ℚ)) (profileId limit : Nat)
    (thr : ℚ) (inc : Bool) (chunks : List StoredChunk)
    (h : truthyEmb q = false) :
    searchSimilarChunks dist q profileId limit thr inc chunks =
      { results := []
        total_results := 0
        query_embedding := none
        metadata :=
          [("error", .str (some "Failed to generate query embedding"))] } := by
  simp [searchSimilarChunks, h]

/-- Witness for C8: a `none` query embedding. -/
theorem claim_C8_witness :
    truthyEmb none = false ∧
    searchSimilarChunks (fun _ _ => 0) none 1 10 (7/10) true [] =
      { results := []
        total_results := 0
        query_embedding := none
        metadata :=
          [("error", .str (some "Failed to generate query embedding"))] } :=
  ⟨rfl, claim_C8_embedding_failure_empty_response
    (fun _ _ => 0) none 1 10 (7/10) true [] rfl⟩

/-! ## Claim C7: similarity threshold filtering -/

/-- Every result accumulated by the vector-search fold scores at least
the threshold and carries `1 - dist(chunk.embedding, query)`. -/
theorem vectorSearchStep_invariant (dist : List ℚ → List ℚ → ℚ)
    (q : List ℚ) (thr : ℚ) (inc : Bool) :
    ∀ (chunks : List StoredChunk) (acc : List SearchResult),
      (∀ r ∈ acc, thr ≤ r.similarity_score ∧
        r.similarity_score = 1 - dist (r.chunk.embedding.getD []) q) →
      ∀ r ∈ chunks.foldl (vectorSearchStep dist q thr inc) acc,
        thr ≤ r.similarity_score ∧
        r.similarity_score = 1 - dist (r.chunk.embedding.getD []) q := by
  intro chunks
  induction chunks with
  | nil => intro acc hacc r hr; exact hacc r hr
  | cons chunk rest ih =>
    intro acc hacc r hr
    refine ih (vectorSearchStep dist q thr inc acc chunk) ?_ r hr
    intro r' hr'
    unfold vectorSearchStep at hr'
    by_cases hemb : truthyEmb chunk.embedding
    · simp only [hemb, if_true] at hr'
      by_cases hthr : thr ≤ 1 - dist (chunk.embedding.getD []) q
      · simp only [hthr, if_true, List.mem_append, List.mem_singleton] at hr'
        rcases hr' with hr' | hr'
        · exact hacc r' hr'
        · subst hr'; exact ⟨hthr, rfl⟩
      · simp only [hthr, if_false] at hr'
        exact hacc r' hr'
    · simp only [hemb, if_false] at hr'
      exact hacc r' hr'

/-- C7: for every `similarity_threshold ∈ [0, 1]`, every `SearchResult`
returned by the vector search of `search_similar_chunks` has
`similarity_score ≥ similarity_threshold`, the score being exactly
`1 - cosine_distance(chunk.embedding, query_embedding)`; sub-threshold
chunks are discarded.  (Holds for every threshold; the `[0, 1]`
hypotheses mirror the claim.) -/
theorem claim_C7_threshold (dist : List ℚ → List ℚ → ℚ) (q : List ℚ)
    (limit : Nat) (thr : ℚ) (inc : Bool) (chunks : List StoredChunk)
    (h0 : 0 ≤ thr) (h1 : thr ≤ 1) :
    ∀ r ∈ performVectorSearch dist q limit thr inc chunks,
      thr ≤ r.similarity_score ∧
      r.similarity_score = 1 - dist (r.chunk.embedding.getD []) q := by
  intro r hr
  have hr' : r ∈ vectorSearchLoop dist q thr inc chunks :=
    List.mem_of_mem_take hr
  exact vectorSearchStep_invariant dist q thr inc chunks []
    (by intro r' hr'; cases hr') r hr'

/-- Witness for C7: one in-threshold and one sub-threshold chunk;
the surviving result scores above the threshold. -/
theorem claim_C7_witness :
    (0 : ℚ) ≤ 1/2 ∧ (1/2 : ℚ) ≤ 1 ∧
    ∀ r ∈ performVectorSearch (fun a _ => a.headD 1) [1] 10 (1/2) false
        [⟨1, some [1/4], 0, none, none⟩, ⟨2, some [9/10], 1, none, none⟩],
      (1/2 : ℚ) ≤ r.similarity_score := by
  refine ⟨by norm_num, by norm_num, ?_⟩
  intro r hr
  exact (claim_C7_threshold (fun a _ => a.headD 1) [1] 10 (1/2) false
    [⟨1, some [1/4], 0, none, none⟩, ⟨2, some [9/10], 1, none, none⟩]
    (by norm_num) (by norm_num) r hr).1

/-! ## Claim C3: the character-window fallback never overlaps -/

/-- C3 (refuted): with `chunk_size = 10`, `chunk_overlap = 3`,
`min_chunk_size = 1` on thirty `'a'`s, the claim predicts windows
advancing by `chunk_size - chunk_overlap = 7` with consecutive spans
overlapping; the code's `start = max(start + chunk_size - chunk_overlap,
end)` instead yields the pairwise-disjoint spans
`[(0,10), (10,20), (20,30)]` — consecutive spans never overlap. -/
theorem claim_C3_character_windows_disjoint :
    (chunkByCharacters
        { chunk_size := 10, chunk_overlap := 3, min_chunk_size := 1,
          max_chunk_size := 2000 }
        (List.replicate 30 'a')).map (fun c => (c.start_char, c.end_char)) =
      [(0, 10), (10, 20), (20, 30)] := by decide

/-! ## Claim C5: rank is never re-assigned after fusion -/

/-- C5 (refuted): `hybrid_search` sorts the fused results by score
descending and truncates to `limit`, but never re-assigns `rank`: a
keyword-only result is returned with the `rank = 0` placeholder set by
`_keyword_search` (the claim requires ranks `1..N`). -/
theorem claim_C5_rank_not_reassigned :
    (hybridSearchCore []
        [⟨⟨7, none, 0, none, none⟩, 1/2, 0, []⟩]
        10 (7/10) (3/10)).results.map (fun r => r.rank) = [0] := by decide

/-! ## Claim C4: hybrid score fusion -/

/-- `r` belongs to chunk `x`. -/
def matchesChunk (x : Nat) (r : SearchResult) : Bool := r.chunk.id == x

theorem mapSet_lookup_self {α : Type} (k : Nat) (v : α) :
    ∀ (m : List (Nat × α)), (mapSet m k v).lookup k = some v := by
  intro m
  induction m with
  | nil => simp [mapSet, List.lookup]
  | cons kv rest ih =>
    obtain ⟨k0, v0⟩ := kv
    by_cases h0 : k0 = k
    · subst h0; simp [mapSet, List.lookup]
    · have hbe : (k == k0) = false := by simp [Ne.symm h0]
      simp [mapSet, h0, List.lookup, hbe, ih]

theorem mapSet_lookup_ne {α : Type} (k k' : Nat) (v : α) (h : k' ≠ k) :
    ∀ (m : List (Nat × α)), (mapSet m k v).lookup k' = m.lookup k' := by
  intro m
  have hbe : (k' == k) = false := by simp [h]
  induction m with
  | nil => simp [mapSet, List.lookup, hbe]
  | cons kv rest ih =>
    obtain ⟨k0, v0⟩ := kv
    by_cases h0 : k0 = k
    · subst h0; simp [mapSet, List.lookup, hbe]
    · cases hbe0 : (k' == k0) <;>
        simp [mapSet, h0, List.lookup, hbe0, ih]

theorem mapAdjust_lookup_self {α : Type} (k : Nat) (f : α → α) :
    ∀ (m : List (Nat × α)), (mapAdjust m k f).lookup k = (m.lookup k).map f := by
  intro m
  induction m with
  | nil => simp [mapAdjust, List.lookup]
  | cons kv rest ih =>
    obtain ⟨k0, v0⟩ := kv
    show List.lookup k
      ((if k0 = k then (k0, f v0) else (k0, v0)) :: mapAdjust rest k f) = _
    by_cases h0 : k0 = k
    · subst h0
      rw [if_pos rfl]
      simp [List.lookup]
    · rw [if_neg h0]
      have hbe : (k == k0) = false := by simp [Ne.symm h0]
      simp [List.lookup, hbe, ih]

theorem mapAdjust_lookup_ne {α : Type} (k k' : Nat) (f : α → α) (h : k' ≠ k) :
    ∀ (m : List (Nat × α)), (mapAdjust m k f).lookup k' = m.lookup k' := by
  intro m
  have hbe : (k' == k) = false := by simp [h]
  induction m with
  | nil => simp [mapAdjust, List.lookup]
  | cons kv rest ih =>
    obtain ⟨k0, v0⟩ := kv
    show List.lookup k'
      ((if k0 = k then (k0, f v0) else (k0, v0)) :: mapAdjust rest k f) = _
    by_cases h0 : k0 = k
    · subst h0
      rw [if_pos rfl]
      simp [List.lookup, hbe, ih]
    · rw [if_neg h0]
      cases hbe0 : (k' == k0) <;> simp [List.lookup, hbe0, ih]

theorem matchesChunk_true {x : Nat} {r : SearchResult}
    (h : matchesChunk x r = true) : r.chunk.id = x := by
  simpa [matchesChunk] using h

theorem matchesChunk_false {x : Nat} {r : SearchResult}
    (h : matchesChunk x r = false) : r.chunk.id ≠ x := by
  simpa [matchesChunk] using h

theorem foldVec_lookup_none (x : Nat) :
    ∀ (vr : List SearchResult) (m0 : List (Nat × SearchResult)),
      vr.filter (matchesChunk x) = [] →
      (vr.foldl addVectorResult m0).lookup x = m0.lookup x := by
  intro vr
  induction vr with
  | nil => intro m0 _; rfl
  | cons r rest ih =>
    intro m0 hf
    rw [List.filter_cons] at hf
    cases hmx : matchesChunk x r with
    | true => rw [hmx] at hf; simp at hf
    | false =>
      rw [hmx] at hf
      simp only [Bool.false_eq_true, if_false] at hf
      show (rest.foldl addVectorResult (addVectorResult m0 r)).lookup x = _
      rw [ih (addVectorResult m0 r) hf]
      exact mapSet_lookup_ne _ _ _ (fun hc => matchesChunk_false hmx hc.symm) m0

theorem foldVec_lookup_one (x : Nat) :
    ∀ (vr : List SearchResult) (rv : SearchResult)
      (m0 : List (Nat × SearchResult)),
      vr.filter (matchesChunk x) = [rv] →
      (vr.foldl addVectorResult m0).lookup x = some (tagVectorScore rv) := by
  intro vr
  induction vr with
  | nil => intro rv m0 hf; simp at hf
  | cons r rest ih =>
    intro rv m0 hf
    rw [List.filter_cons] at hf
    cases hmx : matchesChunk x r with
    | true =>
      rw [hmx] at hf
      simp only [if_true] at hf
      obtain ⟨rfl, hrest⟩ : r = rv ∧ rest.filter (matchesChunk x) = [] := by
        constructor
        · exact (List.cons_eq_cons.mp hf).1
        · exact (List.cons_eq_cons.mp hf).2
      show (rest.foldl addVectorResult (addVectorResult m0 r)).lookup x = _
      rw [foldVec_lookup_none x rest (addVectorResult m0 r) hrest]
      unfold addVectorResult
      rw [matchesChunk_true hmx]
      exact mapSet_lookup_self x (tagVectorScore r) m0
    | false =>
      rw [hmx] at hf
      simp only [Bool.false_eq_true, if_false] at hf
      show (rest.foldl addVectorResult (addVectorResult m0 r)).lookup x = _
      exact ih rv (addVectorResult m0 r) hf

theorem addKeywordResult_lookup_ne (vw kw : ℚ) (x : Nat)
    (m0 : List (Nat × SearchResult)) (r : SearchResult)
    (h : r.chunk.id ≠ x) :
    (addKeywordResult vw kw m0 r).lookup x = m0.lookup x := by
  unfold addKeywordResult
  cases hs : (m0.lookup r.chunk.id).isSome
  · simp only [hs, Bool.false_eq_true, if_false]
    exact mapSet_lookup_ne _ _ _ (Ne.symm h) m0
  · simp only [hs, if_true]
    exact mapAdjust_lookup_ne _ _ _ (Ne.symm h) m0

theorem foldKw_lookup_none (vw kw : ℚ) (x : Nat) :
    ∀ (kr : List SearchResult) (m0 : List (Nat × SearchResult)),
      kr.filter (matchesChunk x) = [] →
      (kr.foldl (addKeywordResult vw kw) m0).lookup x = m0.lookup x := by
  intro kr
  induction kr with
  | nil => intro m0 _; rfl
  | cons r rest ih =>
    intro m0 hf
    rw [List.filter_cons] at hf
    cases hmx : matchesChunk x r with
    | true => rw [hmx] at hf; simp at hf
    | false =>
      rw [hmx] at hf
      simp only [Bool.false_eq_true, if_false] at hf
      show (rest.foldl (addKeywordResult vw kw)
        (addKeywordResult vw kw m0 r)).lookup x = _
      rw [ih (addKeywordResult vw kw m0 r) hf]
      exact addKeywordResult_lookup_ne vw kw x m0 r (matchesChunk_false hmx)

theorem foldKw_lookup_one (vw kw : ℚ) (x : Nat) :
    ∀ (kr : List SearchResult) (rk : SearchResult)
      (m0 : List (Nat × SearchResult)),
      kr.filter (matchesChunk x) = [rk] →
      (kr.foldl (addKeywordResult vw kw) m0).lookup x =
        some (match m0.lookup x with
          | some ex => combineScores vw kw ex rk
          | none => scaleKeyword kw rk) := by
  intro kr
  induction kr with
  | nil => intro rk m0 hf; simp at hf
  | cons r rest ih =>
    intro rk m0 hf
    rw [List.filter_cons] at hf
    cases hmx : matchesChunk x r with
    | true =>
      rw [hmx] at hf
      simp only [if_true] at hf
      obtain ⟨rfl, hrest⟩ : r = rk ∧ rest.filter (matchesChunk x) = [] := by
        exact ⟨(List.cons_eq_cons.mp hf).1, (List.cons_eq_cons.mp hf).2⟩
      show (rest.foldl (addKeywordResult vw kw)
        (addKeywordResult vw kw m0 r)).lookup x = _
      rw [foldKw_lookup_none vw kw x rest (addKeywordResult vw kw m0 r) hrest]
      unfold addKeywordResult
      rw [matchesChunk_true hmx]
      cases hm0 : m0.lookup x with
      | none =>
        simp only [hm0, Option.isSome_none, Bool.false_eq_true, if_false]
        exact mapSet_lookup_self x (scaleKeyword kw r) m0
      | some ex =>
        simp only [hm0, Option.isSome_some, if_true]
        rw [mapAdjust_lookup_self x _ m0, hm0]
        rfl
    | false =>
      rw [hmx] at hf
      simp only [Bool.false_eq_true, if_false] at hf
      show (rest.foldl (addKeywordResult vw kw)
        (addKeywordResult vw kw m0 r)).lookup x = _
      rw [ih rk (addKeywordResult vw kw m0 r) hf,
        addKeywordResult_lookup_ne vw kw x m0 r (matchesChunk_false hmx)]

/-- The keys of the fusion dict are pairwise distinct. -/
def KeysNodup {α : Type} (m : List (Nat × α)) : Prop :=
  (m.map Prod.fst).Nodup

/-- Every entry of the fusion dict is stored under its chunk's id. -/
def WellKeyed (m : List (Nat × SearchResult)) : Prop :=
  ∀ kv ∈ m, kv.2.chunk.id = kv.1

theorem mapSet_cons_pos {α : Type} (k : Nat) (v : α) (k0 : Nat) (v0 : α)
    (rest : List (Nat × α)) (h : k0 = k) :
    mapSet ((k0, v0) :: rest) k v = (k, v) :: rest := by
  show (if k0 = k then (k, v) :: rest else (k0, v0) :: mapSet rest k v) = _
  rw [if_pos h]

theorem mapSet_cons_neg {α : Type} (k : Nat) (v : α) (k0 : Nat) (v0 : α)
    (rest : List (Nat × α)) (h : ¬k0 = k) :
    mapSet ((k0, v0) :: rest) k v = (k0, v0) :: mapSet rest k v := by
  show (if k0 = k then (k, v) :: rest else (k0, v0) :: mapSet rest k v) = _
  rw [if_neg h]

theorem mem_keys_mapSet {α : Type} (k k'' : Nat) (v : α) :
    ∀ (m : List (Nat × α)), k'' ∈ (mapSet m k v).map Prod.fst →
      k'' ∈ m.map Prod.fst ∨ k'' = k := by
  intro m
  induction m with
  | nil => intro h; simp [mapSet] at h; exact Or.inr h
  | cons kv rest ih =>
    obtain ⟨k0, v0⟩ := kv
    by_cases h0 : k0 = k
    · intro h
      simp only [mapSet, if_pos h0, List.map_cons, List.mem_cons] at h
      rcases h with h | h
      · exact Or.inr h
      · exact Or.inl (by simp [h])
    · intro h
      simp only [mapSet, if_neg h0, List.map_cons, List.mem_cons] at h
      rcases h with h | h
      · exact Or.inl (by simp [h])
      · rcases ih h with h' | h'
        · exact Or.inl (by simp [List.mem_cons]; right; simpa using h')
        · exact Or.inr h'

theorem keysNodup_mapSet {α : Type} (k : Nat) (v : α) :
    ∀ (m : List (Nat × α)), KeysNodup m → KeysNodup (mapSet m k v) := by
  intro m
  induction m with
  | nil => intro _; simp [KeysNodup, mapSet]
  | cons kv rest ih =>
    obtain ⟨k0, v0⟩ := kv
    intro hnd
    rw [KeysNodup, List.map_cons, List.nodup_cons] at hnd
    obtain ⟨hk0, hrest⟩ := hnd
    by_cases h0 : k0 = k
    · subst h0
      rw [KeysNodup, mapSet_cons_pos _ _ _ _ _ rfl]
      simp only [List.map_cons, List.nodup_cons]
      exact ⟨hk0, hrest⟩
    · rw [KeysNodup, mapSet_cons_neg _ _ _ _ _ h0]
      simp only [List.map_cons, List.nodup_cons]
      refine ⟨?_, ih hrest⟩
      intro hmem
      rcases mem_keys_mapSet k k0 v rest hmem with h' | h'
      · exact hk0 h'
      · exact h0 h'

theorem wellKeyed_mapSet (k : Nat) (v : SearchResult) (hv : v.chunk.id = k) :
    ∀ (m : List (Nat × SearchResult)), WellKeyed m →
      WellKeyed (mapSet m k v) := by
  intro m
  induction m with
  | nil =>
    intro _ kv hkv
    simp [mapSet] at hkv
    subst hkv; exact hv
  | cons kv0 rest ih =>
    obtain ⟨k0, v0⟩ := kv0
    intro hwk
    have hwk0 : v0.chunk.id = k0 := hwk (k0, v0) (List.mem_cons_self _ _)
    have hwkrest : WellKeyed rest :=
      fun kv hkv => hwk kv (List.mem_cons_of_mem _ hkv)
    by_cases h0 : k0 = k
    · intro kv hkv
      simp only [mapSet, if_pos h0, List.mem_cons] at hkv
      rcases hkv with rfl | hkv
      · exact hv
      · exact hwkrest kv hkv
    · intro kv hkv
      simp only [mapSet, if_neg h0, List.mem_cons] at hkv
      rcases hkv with rfl | hkv
      · exact hwk0
      · exact ih hwkrest kv hkv

theorem keys_mapAdjust {α : Type} (k : Nat) (f : α → α) :
    ∀ (m : List (Nat × α)),
      (mapAdjust m k f).map Prod.fst = m.map Prod.fst := by
  intro m
  induction m with
  | nil => rfl
  | cons kv rest ih =>
    obtain ⟨k0, v0⟩ := kv
    by_cases h0 : k0 = k <;> simp [mapAdjust, h0, ih]

theorem keysNodup_mapAdjust {α : Type} (k : Nat) (f : α → α)
    (m : List (Nat × α)) (h : KeysNodup m) : KeysNodup (mapAdjust m k f) := by
  rw [KeysNodup, keys_mapAdjust]
  exact h

theorem wellKeyed_mapAdjust (k : Nat) (f : SearchResult → SearchResult)
    (hf : ∀ v, (f v).chunk.id = v.chunk.id) :
    ∀ (m : List (Nat × SearchResult)), WellKeyed m →
      WellKeyed (mapAdjust m k f) := by
  intro m
  induction m with
  | nil => intro _ kv hkv; simp [mapAdjust] at hkv
  | cons kv0 rest ih =>
    obtain ⟨k0, v0⟩ := kv0
    intro hwk
    have hwk0 : v0.chunk.id = k0 := hwk (k0, v0) (List.mem_cons_self _ _)
    have hwkrest : WellKeyed rest :=
      fun kv hkv => hwk kv (List.mem_cons_of_mem _ hkv)
    intro kv hkv
    show kv.2.chunk.id = kv.1
    have : kv ∈ (if k0 = k then (k0, f v0) else (k0, v0)) :: mapAdjust rest k f :=
      hkv
    rcases List.mem_cons.mp this with rfl | hmem
    · by_cases h0 : k0 = k
      · rw [if_pos h0]
        show (f v0).chunk.id = k0
        rw [hf v0]; exact hwk0
      · rw [if_neg h0]
        exact hwk0
    · exact ih hwkrest kv hmem

theorem combinedMap_invariants (vr kr : List SearchResult) (vw kw : ℚ) :
    KeysNodup (combinedMap vr kr vw kw) ∧
      WellKeyed (combinedMap vr kr vw kw) := by
  have phase1 : ∀ (l : List SearchResult) (m0 : List (Nat × SearchResult)),
      KeysNodup m0 → WellKeyed m0 →
      KeysNodup (l.foldl addVectorResult m0) ∧
        WellKeyed (l.foldl addVectorResult m0) := by
    intro l
    induction l with
    | nil => intro m0 h1 h2; exact ⟨h1, h2⟩
    | cons r rest ih =>
      intro m0 h1 h2
      refine ih (addVectorResult m0 r) ?_ ?_
      · exact keysNodup_mapSet r.chunk.id (tagVectorScore r) m0 h1
      · exact wellKeyed_mapSet r.chunk.id (tagVectorScore r) rfl m0 h2
  have phase2 : ∀ (l : List SearchResult) (m0 : List (Nat × SearchResult)),
      KeysNodup m0 → WellKeyed m0 →
      KeysNodup (l.foldl (addKeywordResult vw kw) m0) ∧
        WellKeyed (l.foldl (addKeywordResult vw kw) m0) := by
    intro l
    induction l with
    | nil => intro m0 h1 h2; exact ⟨h1, h2⟩
    | cons r rest ih =>
      intro m0 h1 h2
      have hstep1 : KeysNodup (addKeywordResult vw kw m0 r) := by
        unfold addKeywordResult
        cases hs : (m0.lookup r.chunk.id).isSome
        · simp only [hs, Bool.false_eq_true, if_false]
          exact keysNodup_mapSet r.chunk.id (scaleKeyword kw r) m0 h1
        · simp only [hs, if_true]
          exact keysNodup_mapAdjust r.chunk.id _ m0 h1
      have hstep2 : WellKeyed (addKeywordResult vw kw m0 r) := by
        unfold addKeywordResult
        cases hs : (m0.lookup r.chunk.id).isSome
        · simp only [hs, Bool.false_eq_true, if_false]
          exact wellKeyed_mapSet r.chunk.id (scaleKeyword kw r) rfl m0 h2
        · simp only [hs, if_true]
          exact wellKeyed_mapAdjust r.chunk.id
            (fun existing => combineScores vw kw existing r)
            (fun v => rfl) m0 h2
      exact ih (addKeywordResult vw kw m0 r) hstep1 hstep2
  have h1 := phase1 vr [] (by simp [KeysNodup]) (by intro kv hkv; cases hkv)
  exact phase2 kr _ h1.1 h1.2

theorem filter_values_eq_lookup (x : Nat) :
    ∀ (m : List (Nat × SearchResult)), KeysNodup m → WellKeyed m →
      ((m.map Prod.snd).filter (matchesChunk x)) = (m.lookup x).toList := by
  intro m
  induction m with
  | nil => intro _ _; simp [List.lookup]
  | cons kv rest ih =>
    obtain ⟨k0, v0⟩ := kv
    intro hnd hwk
    rw [KeysNodup, List.map_cons, List.nodup_cons] at hnd
    obtain ⟨hk0, hrest⟩ := hnd
    have hwk0 : v0.chunk.id = k0 := hwk (k0, v0) (List.mem_cons_self _ _)
    have hwkrest : WellKeyed rest :=
      fun kv hkv => hwk kv (List.mem_cons_of_mem _ hkv)
    rw [List.map_cons, List.filter_cons]
    by_cases hx : k0 = x
    · subst hx
      have hm : matchesChunk k0 v0 = true := by simp [matchesChunk, hwk0]
      rw [hm]
      have hrestnil : (rest.map Prod.snd).filter (matchesChunk k0) = [] := by
        rw [List.filter_eq_nil_iff]
        intro w hw
        obtain ⟨kv, hkv, rfl⟩ := List.mem_map.mp hw
        have : kv.2.chunk.id = kv.1 := hwkrest kv hkv
        simp only [matchesChunk, this]
        have hmem : kv.1 ∈ rest.map Prod.fst :=
          List.mem_map_of_mem Prod.fst hkv
        have hne : kv.1 ≠ k0 := by
          intro hc
          rw [hc] at hmem
          exact hk0 hmem
        simpa using hne
      rw [if_pos rfl, hrestnil]
      have : List.lookup k0 ((k0, v0) :: rest) = some v0 := by
        simp [List.lookup]
      rw [this]
      rfl
    · have hm : matchesChunk x v0 = false := by
        simp [matchesChunk, hwk0, hx]
      rw [hm]
      simp only [Bool.false_eq_true, if_false]
      have : List.lookup x ((k0, v0) :: rest) = List.lookup x rest := by
        have hbe : (x == k0) = false := by simp [Ne.symm hx]
        simp [List.lookup, hbe]
      rw [this]
      exact ih hrest hwkrest

/-- C4: hybrid fusion scores.  A chunk present in both result sets gets
`vector_similarity * vector_weight + keyword_score * keyword_weight`; a
chunk only in the keyword results gets `keyword_score * keyword_weight`;
a chunk only in the vector results keeps its vector similarity
*unscaled*.  Consequently with weights `0.7 / 0.3`, a vector-only chunk
with similarity `0.6` (final `0.6`) ranks above a keyword-only chunk
with keyword score `0.8` (final `0.24`). -/
theorem claim_C4_hybrid_fusion (vr kr : List SearchResult) (vw kw : ℚ)
    (x : Nat) (rv rk : SearchResult) :
    (vr.filter (matchesChunk x) = [rv] → kr.filter (matchesChunk x) = [rk] →
      ((combineResults vr kr vw kw).filter (matchesChunk x)).map
          (fun r => r.similarity_score) =
        [rv.similarity_score * vw + rk.similarity_score * kw]) ∧
    (vr.filter (matchesChunk x) = [] → kr.filter (matchesChunk x) = [rk] →
      ((combineResults vr kr vw kw).filter (matchesChunk x)).map
          (fun r => r.similarity_score) =
        [rk.similarity_score * kw]) ∧
    (vr.filter (matchesChunk x) = [rv] → kr.filter (matchesChunk x) = [] →
      ((combineResults vr kr vw kw).filter (matchesChunk x)).map
          (fun r => r.similarity_score) =
        [rv.similarity_score]) ∧
    (hybridSearchCore
        [⟨⟨2, some [1], 0, none, none⟩, 3/5, 1, []⟩]
        [⟨⟨1, none, 0, none, none⟩, 4/5, 0, []⟩]
        10 (7/10) (3/10)).results.map
        (fun r => (r.chunk.id, r.similarity_score)) =
      [(2, 3/5), (1, 6/25)] := by
  obtain ⟨hnd, hwk⟩ := combinedMap_invariants vr kr vw kw
  have hchar := filter_values_eq_lookup x (combinedMap vr kr vw kw) hnd hwk
  refine ⟨?_, ?_, ?_, by
    norm_num [hybridSearchCore, combineResults, combinedMap, addVectorResult,
      addKeywordResult, tagVectorScore, scaleKeyword, combineScores, mapSet,
      mapAdjust, sortByScoreDesc, insertDesc, List.lookup, List.foldl,
      show ((1 : Nat) == 2) = false from rfl, Option.isSome]⟩
  · intro hv hk
    rw [combineResults, hchar, combinedMap,
      foldKw_lookup_one vw kw x kr rk _ hk,
      foldVec_lookup_one x vr rv _ hv]
    rfl
  · intro hv hk
    rw [combineResults, hchar, combinedMap,
      foldKw_lookup_one vw kw x kr rk _ hk,
      foldVec_lookup_none x vr _ hv]
    rfl
  · intro hv hk
    rw [combineResults, hchar, combinedMap,
      foldKw_lookup_none vw kw x kr _ hk,
      foldVec_lookup_one x vr rv _ hv]
    rfl

/-- Witness for C4: two singleton result sets over the same chunk id;
the fused score is `vector_similarity * vector_weight + keyword_score *
keyword_weight`. -/
theorem claim_C4_witness :
    ((combineResults
        [⟨⟨5, some [1], 0, none, none⟩, 1/2, 1, []⟩]
        [⟨⟨5, none, 0, none, none⟩, 1/3, 0, []⟩]
        (7/10) (3/10)).filter (matchesChunk 5)).map
        (fun r => r.similarity_score) =
      [(1/2 : ℚ) * (7/10) + (1/3) * (3/10)] :=
  (claim_C4_hybrid_fusion
    [⟨⟨5, some [1], 0, none, none⟩, 1/2, 1, []⟩]
    [⟨⟨5, none, 0, none, none⟩, 1/3, 0, []⟩]
    (7/10) (3/10) 5
    ⟨⟨5, some [1], 0, none, none⟩, 1/2, 1, []⟩
    ⟨⟨5, none, 0, none, none⟩, 1/3, 0, []⟩).1 rfl rfl

end RagCore
